import Mathlib

/-!
Verification development for the CharPack diff-and-pack engine.

The TypeScript sources are shallowly embedded:

* byte buffers (`Buffer`) are `List Nat`, with each entry a byte value;
  out-of-range reads are modelled as the default `0` (all theorems proved
  here only exercise in-range reads);
* JavaScript numbers used as thresholds are embedded as `Rat` (the code
  compares small integers against decimal literals such as `0.5` and `1.25`,
  which binary floating point represents exactly at these magnitudes);
* the external collaborators (the DEFLATE byte compressor `compress` /
  `decompress` of core/compress.ts, and the sharp PNG encoder / decoder used
  by core/diff.ts) are passed as explicit function parameters; theorems state
  the lossless-pair interface of spec section 6 as hypotheses on them;
* `Math.sqrt(d) > t` under the guard `t > 0` is embedded as the equivalent
  exact comparison `d > t^2`;
* variation names are embedded as their UTF-8 byte sequences (all writes and
  length computations in the source operate on the UTF-8 bytes);
* Node `fs` file contents are byte lists; the mutation entry points take the
  current file content and return the new content or a typed failure, with
  the error strings of the source (string interpolation segments dropped).

Unsigned 32-bit writes (`writeUInt32LE`) are embedded as `v % 2^32` split
into little-endian bytes; Node instead throws for out-of-range values, so
theorems carry explicit boundedness hypotheses where a value is written.
-/

namespace CharPack

/-- A byte buffer: the embedding of a Node `Buffer`. -/
abbrev Bytes := List Nat

/-- Rectangle region, from core/types.ts. -/
structure Rectangle where
  x : Nat
  y : Nat
  width : Nat
  height : Nat
deriving DecidableEq, Repr

/-- Diff patch: a rectangle together with its (encoded) pixel data, from core/types.ts. -/
structure DiffPatch where
  rect : Rectangle
  data : Bytes
deriving DecidableEq, Repr

/-- Raw image data, from core/types.ts. -/
structure RawImageData where
  width : Nat
  height : Nat
  channels : Nat
  data : Bytes
deriving DecidableEq, Repr

/-- Metadata for a single variation, from core/types.ts. -/
structure VariationMetadata where
  name : Bytes
  patches : List DiffPatch
deriving DecidableEq, Repr

/-- Complete CharPack file structure, from core/types.ts (the TS-only
`format` tag is omitted; `serialize` never reads it). -/
structure CharPackData where
  version : Nat
  width : Nat
  height : Nat
  baseImage : Bytes
  variations : List VariationMetadata
deriving DecidableEq, Repr

/-! ## Block differencer (core/diff.ts, the threshold-aware revision) -/

/-- Read a byte, `0` when out of range (in-range everywhere we prove). -/
def byteAt (b : Bytes) (i : Nat) : Nat := b.getD i 0

/-- `Math.abs(base.data[i] - target.data[i])` on byte values. -/
def chanDiff (base target : Bytes) (i : Nat) : Nat :=
  ((byteAt base i : Int) - (byteAt target i : Int)).natAbs

/-- One iteration step of the triple pixel loop of `isBlockDifferent`:
whether the sample at block-relative position `(dy, dx, c)` is counted as a
difference. In color-distance mode (`colorDistThreshold > 0`) only the
`c = 0` pass counts, using the Euclidean RGB distance (embedded squared);
otherwise the per-channel threshold comparison counts every channel. -/
def sampleHit (base target : RawImageData) (x y : Nat)
    (threshold colorDistThreshold : ℚ) (p : Nat × Nat × Nat) : Bool :=
  let dy := p.1
  let dx := p.2.1
  let c := p.2.2
  let px := x + dx
  let py := y + dy
  let idx := (py * base.width + px) * base.channels
  if 0 < colorDistThreshold then
    c = 0 ∧
      ((((byteAt base.data idx : Int) - byteAt target.data idx) ^ 2 +
        ((byteAt base.data (idx + 1) : Int) - byteAt target.data (idx + 1)) ^ 2 +
        ((byteAt base.data (idx + 2) : Int) - byteAt target.data (idx + 2)) ^ 2 : Int) : ℚ) >
        colorDistThreshold ^ 2
  else
    (chanDiff base.data target.data (idx + c) : ℚ) > threshold

/-- Block-relative scan positions in source order: `dy` outermost, then
`dx`, then the channel index `c`. -/
def scanPositions (height width channels : Nat) : List (Nat × Nat × Nat) :=
  (List.range height).flatMap fun dy =>
    (List.range width).flatMap fun dx =>
      (List.range channels).map fun c => (dy, dx, c)

/-- The counting loop of `isBlockDifferent`: walks the scan positions
carrying `diffCount`, returning `true` as soon as the strict mode fires or
the running count exceeds `maxDiffAllowed`. -/
def blockScan (hit : Nat × Nat × Nat → Bool) (strict : Bool) (maxDiff : Int) :
    List (Nat × Nat × Nat) → Nat → Bool
  | [], _ => false
  | p :: rest, cnt =>
    if hit p then
      if strict ∨ (cnt + 1 : Int) > maxDiff then true
      else blockScan hit strict maxDiff rest (cnt + 1)
    else blockScan hit strict maxDiff rest cnt

/-- `isBlockDifferent` from core/diff.ts: `maxDiffAllowed` is
`Math.floor(width * height * toleranceRatio)`; strict mode is
`toleranceRatio === 0`. -/
def isBlockDifferent (base target : RawImageData) (x y width height : Nat)
    (threshold colorDistThreshold toleranceRatio : ℚ) : Bool :=
  blockScan (sampleHit base target x y threshold colorDistThreshold)
    (toleranceRatio = 0) (⌊(width * height : ℚ) * toleranceRatio⌋)
    (scanPositions height width base.channels) 0

/-- The start coordinates `0, blockSize, 2*blockSize, ...` strictly below
`total` (the `for (let v = 0; v < total; v += blockSize)` loop heads; the
source never runs it with `blockSize = 0`). -/
def gridStarts (total blockSize : Nat) : List Nat :=
  (List.range ((total + blockSize - 1) / blockSize)).map (· * blockSize)

/-- The differing blocks of the grid scan of `calculateDiff`, in row-major
order; edge cells are clipped with `Math.min`. -/
def diffBlockList (base target : RawImageData) (blockSize : Nat)
    (threshold colorDistThreshold toleranceRatio : ℚ) : List Rectangle :=
  (gridStarts base.height blockSize).flatMap fun y =>
    (gridStarts base.width blockSize).filterMap fun x =>
      let blockWidth := min blockSize (base.width - x)
      let blockHeight := min blockSize (base.height - y)
      if isBlockDifferent base target x y blockWidth blockHeight
          threshold colorDistThreshold toleranceRatio then
        some ⟨x, y, blockWidth, blockHeight⟩
      else none

/-! ## Rectangle merger (core/diff.ts `mergeRectangles`) -/

/-- The merge-candidate test `intersectsOrAdjacent`: true area overlap, or a
shared edge whose overlap length is at least 50 percent of the smaller
corresponding side. -/
def intersectsOrAdjacent (a b : Rectangle) : Bool :=
  let aRight := a.x + a.width
  let bRight := b.x + b.width
  let aBottom := a.y + a.height
  let bBottom := b.y + b.height
  let xOverlap := a.x < bRight ∧ b.x < aRight
  let yOverlap := a.y < bBottom ∧ b.y < aBottom
  if xOverlap ∧ yOverlap then true
  else if xOverlap ∧ (aBottom = b.y ∨ bBottom = a.y) then
    ((min aRight bRight : Int) - max a.x b.x : ℚ) ≥ (min a.width b.width : ℚ) * 0.5
  else if yOverlap ∧ (aRight = b.x ∨ bRight = a.x) then
    ((min aBottom bBottom : Int) - max a.y b.y : ℚ) ≥ (min a.height b.height : ℚ) * 0.5
  else false

/-- Bounding union of two rectangles. -/
def unionRect (a b : Rectangle) : Rectangle :=
  ⟨min a.x b.x, min a.y b.y,
    max (a.x + a.width) (b.x + b.width) - min a.x b.x,
    max (a.y + a.height) (b.y + b.height) - min a.y b.y⟩

/-- The over-merge guard: the union area strictly exceeds `1.25` times the
sum of the two areas, in which case the merge is skipped. -/
def areaCapExceeded (a b : Rectangle) : Bool :=
  ((unionRect a b).width * (unionRect a b).height : ℚ) >
    (a.width * a.height + b.width * b.height : ℚ) * 1.25

/-- Scan the tail for the first rectangle mergeable with `a` (candidate and
not cap-rejected, the `continue` of the source); on success returns the
union together with the tail with that partner removed. -/
def findPartner (a : Rectangle) : List Rectangle → Option (Rectangle × List Rectangle)
  | [] => none
  | b :: rest =>
    if intersectsOrAdjacent a b ∧ ¬ areaCapExceeded a b then
      some (unionRect a b, rest)
    else
      match findPartner a rest with
      | some (u, rest') => some (u, b :: rest')
      | none => none

/-- One pass of the doubly nested `i < j` scan: the first mergeable pair is
replaced (position `i` holds the union, position `j` is removed, matching
`working.splice(j, 1); working[i] = union`). `none` when no pair merges. -/
def mergeOnce : List Rectangle → Option (List Rectangle)
  | [] => none
  | a :: rest =>
    match findPartner a rest with
    | some (u, rest') => some (u :: rest')
    | none =>
      match mergeOnce rest with
      | some l' => some (a :: l')
      | none => none

/-- The `while (didMerge)` loop. Each successful pass shortens the list by
one, so `rects.length` passes always reach the fixpoint; the fuel makes the
definition structurally recursive. -/
def mergeLoop : Nat → List Rectangle → List Rectangle
  | 0, l => l
  | fuel + 1, l =>
    match mergeOnce l with
    | some l' => mergeLoop fuel l'
    | none => l

/-- `mergeRectangles` from core/diff.ts. -/
def mergeRectangles (rects : List Rectangle) : List Rectangle :=
  mergeLoop rects.length rects

/-! ## Patch extraction and application (core/diff.ts) -/

/-- `extractRegion`: the row-contiguous pixel data under `rect`. -/
def extractRegion (image : RawImageData) (rect : Rectangle) : Bytes :=
  (List.range rect.height).flatMap fun dy =>
    ((image.data.drop (((rect.y + dy) * image.width + rect.x) * image.channels)).take
      (rect.width * image.channels))

/-- `calculateDiff` from core/diff.ts: dimension check, grid scan, merge,
then per-rectangle extraction and PNG encoding (the sharp call
`sharp(raw).png().toBuffer()`, taken as the parameter `pngEncode` applied to
the rectangle dimensions, the channel count and the raw bytes). -/
def calculateDiff (pngEncode : Nat → Nat → Nat → Bytes → Bytes)
    (baseImage targetImage : RawImageData) (blockSize : Nat)
    (diffThreshold colorDistanceThreshold diffToleranceRatio : ℚ) :
    Except String (List DiffPatch) :=
  if baseImage.width ≠ targetImage.width ∨ baseImage.height ≠ targetImage.height ∨
      baseImage.channels ≠ targetImage.channels then
    .error "Images must have the same dimensions and channels"
  else
    let mergedRects := mergeRectangles
      (diffBlockList baseImage targetImage blockSize
        diffThreshold colorDistanceThreshold diffToleranceRatio)
    .ok (mergedRects.map fun rect =>
      { rect := rect,
        data := pngEncode rect.width rect.height targetImage.channels
          (extractRegion targetImage rect) })

/-- `Buffer.copy(dst, dstOff, srcStart, srcEnd)` called on `src`: copies
`src[srcStart, srcEnd)` into `dst` at `dstOff`, clamped so the destination
length never changes. -/
def bufCopy (dst : Bytes) (dstOff : Nat) (src : Bytes) (srcStart srcEnd : Nat) : Bytes :=
  let chunk := ((src.drop srcStart).take (srcEnd - srcStart)).take (dst.length - dstOff)
  dst.take dstOff ++ chunk ++ dst.drop (dstOff + chunk.length)

/-- The row loop of `applyPatches` for one patch: row `dy` copies
`src[dy*w*ch, (dy+1)*w*ch)` to target offset `((y+dy)*W + x)*ch`. -/
def applyPatchRows (baseWidth channels x y width height : Nat)
    (src : Bytes) (dst : Bytes) : Bytes :=
  (List.range height).foldl
    (fun acc dy =>
      bufCopy acc (((y + dy) * baseWidth + x) * channels) src
        (dy * (width * channels)) ((dy + 1) * (width * channels)))
    dst

/-- The patch loop of `applyPatches`: each patch is decoded with
`sharp(data).raw().ensureAlpha()` (the parameter `pngDecodeEnsureAlpha`,
returning the decoded channel count and raw bytes), the channel count is
checked against the base image, and the rows are overwritten. -/
def applyPatchesLoop (pngDecodeEnsureAlpha : Bytes → Nat × Bytes)
    (baseImage : RawImageData) : List DiffPatch → Bytes → Except String Bytes
  | [], acc => .ok acc
  | patch :: rest, acc =>
    let decoded := pngDecodeEnsureAlpha patch.data
    if decoded.1 = baseImage.channels then
      applyPatchesLoop pngDecodeEnsureAlpha baseImage rest
        (applyPatchRows baseImage.width decoded.1 patch.rect.x patch.rect.y
          patch.rect.width patch.rect.height decoded.2 acc)
    else
      .error "Channel mismatch between base image and patch image"

/-- `applyPatches` from core/diff.ts: clones the base data, then applies
each patch in order. -/
def applyPatches (pngDecodeEnsureAlpha : Bytes → Nat × Bytes)
    (baseImage : RawImageData) (patches : List DiffPatch) :
    Except String RawImageData :=
  (applyPatchesLoop pngDecodeEnsureAlpha baseImage patches baseImage.data).map
    fun resultData =>
      { width := baseImage.width, height := baseImage.height,
        channels := baseImage.channels, data := resultData }

/-! ## Container codec (core/format.ts) -/

/-- UTF-8 bytes of the magic string "CHPK". -/
def MAGIC : Bytes := [67, 72, 80, 75]

/-- Format version constant. -/
def VERSION : Nat := 1

/-- `writeUInt32LE`: the four little-endian bytes of `v % 2^32` (Node throws
for larger values; boundedness is hypothesized where it matters). -/
def u32le (v : Nat) : Bytes :=
  [v % 256, v / 256 % 256, v / 65536 % 256, v / 16777216 % 256]

/-- Little-endian byte list to natural number. -/
def leNat : Bytes → Nat
  | [] => 0
  | b :: t => b + 256 * leNat t

/-- `buffer.subarray(off, off + len)` (clamped at the buffer end). -/
def slice (buf : Bytes) (off len : Nat) : Bytes := (buf.drop off).take len

/-- `buffer.readUInt32LE(off)` (total model; all proved reads are in range). -/
def readU32 (buf : Bytes) (off : Nat) : Nat := leNat (slice buf off 4)

/-- `buffer.readUInt8(off)`. -/
def readU8 (buf : Bytes) (off : Nat) : Nat := buf.getD off 0

/-- The serialized bytes of one patch inside a variation block:
x, y, width, height, compressed size, compressed data. -/
def patchBytes (compress : Bytes → Bytes) (p : DiffPatch) : Bytes :=
  u32le p.rect.x ++ u32le p.rect.y ++ u32le p.rect.width ++ u32le p.rect.height ++
    u32le (compress p.data).length ++ compress p.data

/-- One variation block: patch count followed by the patches (the name is
kept in the index, not the block). -/
def patchBlockBytes (compress : Bytes → Bytes) (v : VariationMetadata) : Bytes :=
  u32le v.patches.length ++ v.patches.flatMap (patchBytes compress)

/-- The channel count `serialize` derives: `baseImage.length / (width * height)`
(exact for well-formed pixel buffers). -/
def channelsOf (d : CharPackData) : Nat := d.baseImage.length / (d.width * d.height)

/-- The header section of `serialize`: magic, version, dimensions, channel
byte, compressed base image with its size, and the variation count. -/
def headerBytes (compress : Bytes → Bytes) (d : CharPackData) : Bytes :=
  MAGIC ++ u32le VERSION ++ u32le d.width ++ u32le d.height ++
    [channelsOf d % 256] ++ u32le (compress d.baseImage).length ++
    compress d.baseImage ++ u32le d.variations.length

/-- Index entries laid out sequentially from absolute offset `start`;
each entry is name length, name bytes, block offset, block size, and the
offset accumulates the block sizes. -/
def indexEntriesBytes (start : Nat) : List (Bytes × Nat) → Bytes
  | [] => []
  | (name, bsize) :: t =>
    (u32le name.length ++ name ++ u32le start ++ u32le bsize) ++
      indexEntriesBytes (start + bsize) t

/-- The per-variation `(nameBuf, blockSize)` info list of `serialize`. -/
def blockInfos (compress : Bytes → Bytes) (d : CharPackData) : List (Bytes × Nat) :=
  d.variations.map fun v => (v.name, (patchBlockBytes compress v).length)

/-- The byte size of the index table: `4 + name length + 4 + 4` per entry. -/
def indexSizeOf (infos : List (Bytes × Nat)) : Nat :=
  infos.foldl (fun acc info => acc + 4 + info.1.length + 4 + 4) 0

/-- `serialize` from core/format.ts: header, then the index table (whose
total size is computed first so the first block offset is known), then the
variation blocks in order. -/
def serialize (compress : Bytes → Bytes) (d : CharPackData) : Bytes :=
  let header := headerBytes compress d
  let infos := blockInfos compress d
  header ++ indexEntriesBytes (header.length + indexSizeOf infos) infos ++
    d.variations.flatMap (patchBlockBytes compress)

/-- Lightweight variation index information extracted from the header. -/
structure VariationIndex where
  name : Bytes
  offset : Nat
  size : Nat
deriving DecidableEq, Repr

/-- Result of `parseHeaderWithIndex`. -/
structure HeaderInfo where
  width : Nat
  height : Nat
  channels : Nat
  baseImage : Bytes
  variations : List VariationIndex
deriving DecidableEq, Repr

/-- The index-reading loop of `parseHeaderWithIndex`: `count` entries
starting at `off`, each advancing by `4 + nameLen + 8`. -/
def parseIndexEntries (buf : Bytes) : Nat → Nat → List VariationIndex
  | _, 0 => []
  | off, n + 1 =>
    let nameLen := readU32 buf off
    let name := slice buf (off + 4) nameLen
    let dataOffset := readU32 buf (off + 4 + nameLen)
    let dataSize := readU32 buf (off + 4 + nameLen + 4)
    ⟨name, dataOffset, dataSize⟩ :: parseIndexEntries buf (off + 4 + nameLen + 8) n

/-- `parseHeaderWithIndex` from core/format.ts: checks magic and version,
reads dimensions, channel byte, the compressed base image (decompressed on
return) and the index table, stopping before any variation block. -/
def parseHeaderWithIndex (decompress : Bytes → Bytes) (buf : Bytes) :
    Except String HeaderInfo :=
  if slice buf 0 4 ≠ MAGIC then
    .error "Invalid CharPack file: magic mismatch"
  else if readU32 buf 4 ≠ VERSION then
    .error "Unsupported CharPack version"
  else
    let width := readU32 buf 8
    let height := readU32 buf 12
    let channels := readU8 buf 16
    let baseImgSize := readU32 buf 17
    let baseImage := decompress (slice buf 21 baseImgSize)
    let varCount := readU32 buf (21 + baseImgSize)
    .ok ⟨width, height, channels, baseImage,
      parseIndexEntries buf (21 + baseImgSize + 4) varCount⟩

/-- The patch-reading loop shared by `deserialize`, `addVariationsToFile`
and `extractVariationBlock`: `count` patches starting at `off` in `buf`,
each advancing by `20 + dataSize`, with the data decompressed. -/
def parsePatches (decompress : Bytes → Bytes) (buf : Bytes) : Nat → Nat → List DiffPatch
  | _, 0 => []
  | off, n + 1 =>
    let x := readU32 buf off
    let y := readU32 buf (off + 4)
    let w := readU32 buf (off + 8)
    let h := readU32 buf (off + 12)
    let dataSize := readU32 buf (off + 16)
    ⟨⟨x, y, w, h⟩, decompress (slice buf (off + 20) dataSize)⟩ ::
      parsePatches decompress buf (off + 20 + dataSize) n

/-- `deserialize` from core/format.ts: parse the header and index, then for
each index entry read the patch count at its offset and parse its patches. -/
def deserialize (decompress : Bytes → Bytes) (buf : Bytes) :
    Except String CharPackData :=
  (parseHeaderWithIndex decompress buf).map fun hdr =>
    { version := VERSION, width := hdr.width, height := hdr.height,
      baseImage := hdr.baseImage,
      variations := hdr.variations.map fun entry =>
        { name := entry.name,
          patches := parsePatches decompress buf (entry.offset + 4)
            (readU32 buf entry.offset) } }

/-! ## Random-access reader (node/read.ts) -/

/-- `extractVariationBlock` from node/read.ts: read exactly the block byte
range of one index entry and parse its patches relative to the block. -/
def extractVariationBlock (decompress : Bytes → Bytes) (file : Bytes)
    (variation : VariationIndex) : VariationMetadata :=
  let blockBuffer := slice file variation.offset variation.size
  { name := variation.name,
    patches := parsePatches decompress blockBuffer 4 (readU32 blockBuffer 0) }

/-- `extract` from node/read.ts, up to the reconstructed raw image (the
PNG/JPEG/WebP re-encoding wrappers are outside the diff-and-pack core):
parse header and index, find the variation, read only its block, apply its
patches to the base image. -/
def extract (decompress : Bytes → Bytes) (pngDecodeEnsureAlpha : Bytes → Nat × Bytes)
    (file : Bytes) (variation : Bytes) : Except String RawImageData :=
  match parseHeaderWithIndex decompress file with
  | .error e => .error e
  | .ok hdr =>
    match hdr.variations.find? (fun v => v.name == variation) with
    | none => .error "Variation not found in CharPack"
    | some varEntry =>
      let varMeta := extractVariationBlock decompress file varEntry
      applyPatches pngDecodeEnsureAlpha
        ⟨hdr.width, hdr.height, hdr.channels, hdr.baseImage⟩ varMeta.patches

/-- The bulk-read path of `read` from node/read.ts (`getImage`): fully
deserialize the container, find the variation, and apply its patches to the
base image whose channel count is derived from the buffer length. -/
def readGetImage (decompress : Bytes → Bytes) (pngDecodeEnsureAlpha : Bytes → Nat × Bytes)
    (file : Bytes) (variation : Bytes) : Except String RawImageData :=
  match deserialize decompress file with
  | .error e => .error e
  | .ok charPackData =>
    let baseImage : RawImageData :=
      ⟨charPackData.width, charPackData.height,
        charPackData.baseImage.length / (charPackData.width * charPackData.height),
        charPackData.baseImage⟩
    match charPackData.variations.find? (fun v => v.name == variation) with
    | none => .error "Variation not found in CharPack"
    | some varMeta => applyPatches pngDecodeEnsureAlpha baseImage varMeta.patches

/-! ## Incremental mutator (core/format.ts) -/

/-- `fileHandle.write(buf, bufOffset, len, pos)`: writes `len` bytes of
`buf` starting at `bufOffset` into the file at position `pos`. -/
def fsWrite (file buf : Bytes) (bufOffset len pos : Nat) : Bytes :=
  let chunk := (buf.drop bufOffset).take len
  file.take pos ++ chunk ++ file.drop (pos + chunk.length)

/-- `addVariationsToFile` from core/format.ts, as a function from the
current file content to the new file content: parse the index, reject a new
name colliding with an existing one, re-read every existing block into
patches, and serialize the whole container again with the old variations
followed by the new ones (the `channels` argument is accepted and, as in the
source, never used in the output bytes). -/
def addVariationsToFile (compress decompress : Bytes → Bytes) (file : Bytes)
    (newVariations : List VariationMetadata) (baseImage : Bytes)
    (width height channels : Nat) : Except String Bytes :=
  match parseHeaderWithIndex decompress file with
  | .error e => .error e
  | .ok hdr =>
    if newVariations.any (fun v => hdr.variations.any fun e => e.name == v.name) then
      .error "Variation already exists in CharPack"
    else
      let existingVariations := hdr.variations.map (extractVariationBlock decompress file)
      .ok (serialize compress
        { version := 1, width := width, height := height, baseImage := baseImage,
          variations := existingVariations ++ newVariations })

/-- `buildHeaderWithIndex` from core/format.ts: a fresh header plus an index
whose offsets are accumulated from the end of the new header and index,
keeping each entry's recorded size. -/
def buildIndexFromEntries (start : Nat) : List VariationIndex → Bytes
  | [] => []
  | v :: t =>
    (u32le v.name.length ++ v.name ++ u32le start ++ u32le v.size) ++
      buildIndexFromEntries (start + v.size) t

/-- The header-plus-index buffer built by `buildHeaderWithIndex`. -/
def buildHeaderWithIndex (compress : Bytes → Bytes) (baseImage : Bytes)
    (variations : List VariationIndex) (width height channels : Nat) : Bytes :=
  let header := MAGIC ++ u32le VERSION ++ u32le width ++ u32le height ++
    [channels % 256] ++ u32le (compress baseImage).length ++ compress baseImage ++
    u32le variations.length
  let indexSize := variations.foldl (fun acc v => acc + 4 + v.name.length + 4 + 4) 0
  header ++ buildIndexFromEntries (header.length + indexSize) variations

/-- `removeVariationsFromFile` from core/format.ts, as a function from the
current file content to the new file content: parse the index, filter the
named variations out, fail when nothing would remain, then perform the
source's write call `fileHandle.write(newHeaderBuffer, 0, 0, 0)` — whose
`length` argument is literally `0`. -/
def removeVariationsFromFile (compress decompress : Bytes → Bytes) (file : Bytes)
    (variationNames : List Bytes) : Except String Bytes :=
  match parseHeaderWithIndex decompress file with
  | .error e => .error e
  | .ok hdr =>
    let remainingVariations := hdr.variations.filter fun v =>
      ¬ variationNames.contains v.name
    if remainingVariations.length = 0 then
      .error "Cannot remove all variations from CharPack"
    else
      let newHeaderBuffer := buildHeaderWithIndex compress hdr.baseImage
        remainingVariations hdr.width hdr.height hdr.channels
      .ok (fsWrite file newHeaderBuffer 0 0 0)

/-! ## Derived definitions used by the theorem statements -/

/-- The number of counted difference samples of one block scan: channel
samples in per-channel mode, pixels (counted at the `c = 0` pass) in
color-distance mode. This is the quantity the counting loop accumulates. -/
def diffSampleCount (base target : RawImageData) (x y width height : Nat)
    (threshold colorDistThreshold : ℚ) : Nat :=
  (scanPositions height width base.channels).countP
    (sampleHit base target x y threshold colorDistThreshold)

/-- The specification's pixel-level notion: a pixel differs when some
channel pass of the scan counts it (per-channel mode: some channel exceeds
the threshold; color-distance mode: the RGB distance exceeds the
threshold). Stated from the spec's words to compare against the code's
sample counting. -/
def specPixelDiffers (base target : RawImageData) (x y : Nat)
    (threshold colorDistThreshold : ℚ) (dy dx : Nat) : Bool :=
  (List.range base.channels).any fun c =>
    sampleHit base target x y threshold colorDistThreshold (dy, dx, c)

/-- The specification's count of differing pixels within a block. -/
def specDiffPixelCount (base target : RawImageData) (x y width height : Nat)
    (threshold colorDistThreshold : ℚ) : Nat :=
  ((List.range height).flatMap fun dy =>
    (List.range width).map fun dx => (dy, dx)).countP
    fun p => specPixelDiffers base target x y threshold colorDistThreshold p.1 p.2

/-- True area overlap of two rectangles. -/
def rectsOverlap (a b : Rectangle) : Bool :=
  a.x < b.x + b.width ∧ b.x < a.x + a.width ∧
    a.y < b.y + b.height ∧ b.y < a.y + a.height

/-- Containment of rectangle `a` inside rectangle `b`. -/
def rectSubset (a b : Rectangle) : Prop :=
  b.x ≤ a.x ∧ b.y ≤ a.y ∧ a.x + a.width ≤ b.x + b.width ∧
    a.y + a.height ≤ b.y + b.height

/-- The rectangle lies within a `width × height` image. -/
def rectInBounds (r : Rectangle) (width height : Nat) : Prop :=
  r.x + r.width ≤ width ∧ r.y + r.height ≤ height

/-- The index metadata `serialize` embeds: entry `i` carries the absolute
offset `start + sum of the previous block sizes` and its own block size. -/
def indexMeta (start : Nat) : List (Bytes × Nat) → List VariationIndex
  | [] => []
  | (name, bsize) :: t => ⟨name, start, bsize⟩ :: indexMeta (start + bsize) t

/-- The absolute offset of the first variation block of `serialize`:
header length plus index table length. -/
def firstBlockOffset (compress : Bytes → Bytes) (d : CharPackData) : Nat :=
  (headerBytes compress d).length + indexSizeOf (blockInfos compress d)

/-- The index metadata of `serialize` for `d`. -/
def serializeIndex (compress : Bytes → Bytes) (d : CharPackData) : List VariationIndex :=
  indexMeta (firstBlockOffset compress d) (blockInfos compress d)

/-- Every value `serialize` hands to `writeUInt32LE` fits in 32 bits (Node
throws otherwise): dimensions, counts, name lengths, patch rectangles,
compressed sizes, and — covering the index offsets — the total output
length. -/
def SerializeBounded (compress : Bytes → Bytes) (d : CharPackData) : Prop :=
  d.width < 2 ^ 32 ∧ d.height < 2 ^ 32 ∧
    (compress d.baseImage).length < 2 ^ 32 ∧ d.variations.length < 2 ^ 32 ∧
    (∀ v ∈ d.variations, v.name.length < 2 ^ 32 ∧ v.patches.length < 2 ^ 32 ∧
      ∀ p ∈ v.patches, p.rect.x < 2 ^ 32 ∧ p.rect.y < 2 ^ 32 ∧
        p.rect.width < 2 ^ 32 ∧ p.rect.height < 2 ^ 32 ∧
        (compress p.data).length < 2 ^ 32) ∧
    (serialize compress d).length < 2 ^ 32

/-- The per-variation diff loop of the pack entry point (node/pack.ts):
every image is diffed against the base image with the given configuration,
in order, keeping its name. -/
def packVariations (pngEncode : Nat → Nat → Nat → Bytes → Bytes)
    (baseImage : RawImageData) (blockSize : Nat)
    (diffThreshold colorDistanceThreshold diffToleranceRatio : ℚ) :
    List (Bytes × RawImageData) → Except String (List VariationMetadata)
  | [] => .ok []
  | (name, img) :: rest =>
    match calculateDiff pngEncode baseImage img blockSize
        diffThreshold colorDistanceThreshold diffToleranceRatio with
    | .error e => .error e
    | .ok patches =>
      (packVariations pngEncode baseImage blockSize diffThreshold
        colorDistanceThreshold diffToleranceRatio rest).map
        (fun vars => ⟨name, patches⟩ :: vars)

/-- The variation names a file's index lists, for stating index-level
properties of the mutation entry points. -/
def fileIndexNames (decompress : Bytes → Bytes) (buf : Bytes) :
    Except String (List Bytes) :=
  (parseHeaderWithIndex decompress buf).map fun hdr => hdr.variations.map (·.name)

/-- Byte position `i` is covered by some row of the rectangle `r` of a
patch applied to a `width`-pixel-wide image with `channels` channels. -/
def coveredByRect (width channels : Nat) (r : Rectangle) (i : Nat) : Prop :=
  ∃ dy < r.height, ((r.y + dy) * width + r.x) * channels ≤ i ∧
    i < ((r.y + dy) * width + r.x) * channels + r.width * channels

instance (width channels : Nat) (r : Rectangle) (i : Nat) :
    Decidable (coveredByRect width channels r i) := by
  unfold coveredByRect
  infer_instance

/-- A concrete 1 by 1 RGBA container with a single variation named `A`,
used by concrete evaluations. -/
def sampleContainerA : CharPackData :=
  ⟨1, 1, 1, [0, 0, 0, 0], [⟨[65], []⟩]⟩

/-- A concrete 1 by 1 RGBA container with variations named `A` and `B`. -/
def sampleContainerAB : CharPackData :=
  ⟨1, 1, 1, [0, 0, 0, 0], [⟨[65], []⟩, ⟨[66], []⟩]⟩

/-! ## Block scan characterization -/

theorem blockScan_eq_true_iff (hit : Nat × Nat × Nat → Bool) (strict : Bool)
    (maxDiff : Int) (l : List (Nat × Nat × Nat)) (cnt : Nat) :
    blockScan hit strict maxDiff l cnt = true ↔
      1 ≤ l.countP hit ∧
        (strict = true ∨ (cnt + l.countP hit : Int) > maxDiff) := by
  induction l generalizing cnt with
  | nil => simp [blockScan]
  | cons p rest ih =>
    rw [blockScan]
    by_cases hp : hit p = true
    · rw [if_pos hp, List.countP_cons_of_pos _ _ hp]
      by_cases hs : strict = true ∨ (cnt + 1 : Int) > maxDiff
      · rw [if_pos hs]
        constructor
        · intro _
          refine ⟨by omega, ?_⟩
          rcases hs with hs | hs
          · exact Or.inl hs
          · right; push_cast; omega
        · intro _; rfl
      · rw [if_neg hs]
        obtain ⟨hs1, hs2⟩ := not_or.mp hs
        rw [ih]
        constructor
        · rintro ⟨h1, h2⟩
          refine ⟨by omega, ?_⟩
          rcases h2 with h2 | h2
          · exact Or.inl h2
          · right; push_cast at h2 ⊢; omega
        · rintro ⟨_, h2⟩
          rcases h2 with h2 | h2
          · exact absurd h2 hs1
          · push_cast at h2 hs2
            have hr : 1 ≤ rest.countP hit := by omega
            refine ⟨hr, Or.inr ?_⟩
            push_cast
            omega
    · rw [if_neg hp, List.countP_cons_of_neg _ _ hp]
      exact ih cnt

/-- For a nonnegative tolerance ratio, the block verdict is exactly: the
number of counted difference samples exceeds
`Math.floor(width * height * toleranceRatio)`. -/
theorem isBlockDifferent_eq_true_iff (base target : RawImageData)
    (x y width height : Nat) (threshold colorDistThreshold toleranceRatio : ℚ)
    (hr : 0 ≤ toleranceRatio) :
    isBlockDifferent base target x y width height threshold colorDistThreshold
        toleranceRatio = true ↔
      (diffSampleCount base target x y width height threshold colorDistThreshold : Int) >
        ⌊(width * height : ℚ) * toleranceRatio⌋ := by
  rw [isBlockDifferent, blockScan_eq_true_iff]
  rw [show ((scanPositions height width base.channels).countP
      (sampleHit base target x y threshold colorDistThreshold)) =
      diffSampleCount base target x y width height threshold colorDistThreshold from rfl]
  set cnt := diffSampleCount base target x y width height threshold colorDistThreshold with hcnt
  by_cases h0 : toleranceRatio = 0
  · subst h0
    rw [mul_zero, Int.floor_zero]
    simp only [decide_eq_true_eq, true_or, and_true]
    omega
  · have hpos : 0 < toleranceRatio := lt_of_le_of_ne hr (Ne.symm h0)
    have hfl : (0 : Int) ≤ ⌊(width * height : ℚ) * toleranceRatio⌋ := by
      apply Int.floor_nonneg.mpr
      positivity
    simp only [decide_eq_true_eq, h0, false_or]
    constructor
    · rintro ⟨_, h2⟩
      push_cast at h2 ⊢
      omega
    · intro h
      refine ⟨by omega, ?_⟩
      push_cast at h ⊢
      omega

/-- C3 amended as the channel-sample count: the block is reported as
different exactly when `diffSampleCount` exceeds the floor bound; with
`toleranceRatio = 0` the bound is `0`, so any single counted sample marks
the block different. -/
theorem isBlockDifferent_sample_iff (base target : RawImageData)
    (x y width height : Nat) (threshold colorDistThreshold toleranceRatio : ℚ)
    (hr : 0 ≤ toleranceRatio) :
    (isBlockDifferent base target x y width height threshold colorDistThreshold
        toleranceRatio = true ↔
      (diffSampleCount base target x y width height threshold colorDistThreshold : Int) >
        ⌊(width * height : ℚ) * toleranceRatio⌋) ∧
    (isBlockDifferent base target x y width height threshold colorDistThreshold 0 = true ↔
      1 ≤ diffSampleCount base target x y width height threshold colorDistThreshold) := by
  constructor
  · exact isBlockDifferent_eq_true_iff base target x y width height threshold
      colorDistThreshold toleranceRatio hr
  · rw [isBlockDifferent_eq_true_iff base target x y width height threshold
      colorDistThreshold 0 le_rfl]
    rw [mul_zero, Int.floor_zero]
    omega

/-- Witness for `isBlockDifferent_sample_iff` at a concrete block. -/
theorem isBlockDifferent_sample_iff_witness :
    (0 : ℚ) ≤ 1 / 2 ∧
    ((isBlockDifferent ⟨2, 2, 4, List.replicate 16 0⟩
        ⟨2, 2, 4, [9, 9, 9, 0] ++ List.replicate 12 0⟩ 0 0 2 2 0 0 (1 / 2) = true ↔
      (diffSampleCount ⟨2, 2, 4, List.replicate 16 0⟩
          ⟨2, 2, 4, [9, 9, 9, 0] ++ List.replicate 12 0⟩ 0 0 2 2 0 0 : Int) >
        ⌊(2 * 2 : ℚ) * (1 / 2)⌋) ∧
    (isBlockDifferent ⟨2, 2, 4, List.replicate 16 0⟩
        ⟨2, 2, 4, [9, 9, 9, 0] ++ List.replicate 12 0⟩ 0 0 2 2 0 0 0 = true ↔
      1 ≤ diffSampleCount ⟨2, 2, 4, List.replicate 16 0⟩
          ⟨2, 2, 4, [9, 9, 9, 0] ++ List.replicate 12 0⟩ 0 0 2 2 0 0)) :=
  ⟨by norm_num,
    isBlockDifferent_sample_iff ⟨2, 2, 4, List.replicate 16 0⟩
      ⟨2, 2, 4, [9, 9, 9, 0] ++ List.replicate 12 0⟩ 0 0 2 2 0 0 (1 / 2) (by norm_num)⟩

/-- C3 as stated is false: a 2 by 2 block in which a single pixel differs in
three channels. The code reports the block different at tolerance ratio
one half (the three channel samples exceed `floor(4 * 0.5) = 2`), while the
count of differing pixels is `1`, which does not exceed the bound. -/
theorem block_pixel_count_cex :
    isBlockDifferent ⟨2, 2, 4, List.replicate 16 0⟩
        ⟨2, 2, 4, [9, 9, 9, 0] ++ List.replicate 12 0⟩ 0 0 2 2 0 0 (1 / 2) = true ∧
    ¬ ((specDiffPixelCount ⟨2, 2, 4, List.replicate 16 0⟩
        ⟨2, 2, 4, [9, 9, 9, 0] ++ List.replicate 12 0⟩ 0 0 2 2 0 0 : Int) >
      ⌊(2 * 2 : ℚ) * (1 / 2)⌋) := by
  constructor
  · with_unfolding_all decide
  · with_unfolding_all decide

/-! ## Rectangle merger: fixpoint properties -/

/-- A pair the merger would coalesce: candidate and not cap-rejected. -/
def mergeablePair (a b : Rectangle) : Prop :=
  intersectsOrAdjacent a b = true ∧ areaCapExceeded a b = false

theorem findPartner_none_iff (a : Rectangle) (l : List Rectangle) :
    findPartner a l = none ↔ ∀ b ∈ l, ¬ mergeablePair a b := by
  induction l with
  | nil => simp [findPartner]
  | cons b rest ih =>
    rw [findPartner]
    by_cases hb : intersectsOrAdjacent a b ∧ ¬ areaCapExceeded a b
    · rw [if_pos hb]
      simp only [reduceCtorEq, false_iff]
      intro h
      exact h b (List.mem_cons_self b rest) ⟨hb.1, by simpa using hb.2⟩
    · rw [if_neg hb]
      have hnb : ¬ mergeablePair a b := by
        intro hm
        exact hb ⟨hm.1, by simp [hm.2]⟩
      cases hfp : findPartner a rest with
      | some p =>
        obtain ⟨u, rest'⟩ := p
        simp only [reduceCtorEq, false_iff]
        intro h
        have hnone : findPartner a rest = none :=
          ih.mpr fun c hc => h c (List.mem_cons_of_mem b hc)
        rw [hnone] at hfp
        exact absurd hfp (by simp)
      | none =>
        simp only [true_iff]
        intro c hc
        rcases List.mem_cons.mp hc with rfl | hc
        · exact hnb
        · exact (ih.mp hfp) c hc

theorem mergeOnce_none_iff (l : List Rectangle) :
    mergeOnce l = none ↔ l.Pairwise (fun a b => ¬ mergeablePair a b) := by
  induction l with
  | nil => simp [mergeOnce]
  | cons a rest ih =>
    rw [mergeOnce]
    cases hfp : findPartner a rest with
    | some p => simp only [reduceCtorEq, false_iff]
                intro hpw
                rw [List.pairwise_cons] at hpw
                have := (findPartner_none_iff a rest).mpr hpw.1
                rw [this] at hfp
                exact absurd hfp (by simp)
    | none =>
      cases hmo : mergeOnce rest with
      | some l' => simp only [reduceCtorEq, false_iff]
                   intro hpw
                   rw [List.pairwise_cons] at hpw
                   rw [ih.mpr hpw.2] at hmo
                   exact absurd hmo (by simp)
      | none =>
        simp only [true_iff]
        rw [List.pairwise_cons]
        exact ⟨(findPartner_none_iff a rest).mp hfp, ih.mp hmo⟩

theorem findPartner_length (a : Rectangle) (l : List Rectangle) (u : Rectangle)
    (rest' : List Rectangle) (h : findPartner a l = some (u, rest')) :
    rest'.length + 1 = l.length := by
  induction l generalizing rest' with
  | nil => simp [findPartner] at h
  | cons b t ih =>
    rw [findPartner] at h
    by_cases hb : intersectsOrAdjacent a b ∧ ¬ areaCapExceeded a b
    · rw [if_pos hb] at h
      simp only [Option.some.injEq, Prod.mk.injEq] at h
      obtain ⟨-, rfl⟩ := h
      simp
    · rw [if_neg hb] at h
      cases hfp : findPartner a t with
      | some p =>
        rw [hfp] at h
        obtain ⟨u', t'⟩ := p
        simp only [Option.some.injEq, Prod.mk.injEq] at h
        obtain ⟨rfl, rfl⟩ := h
        have := ih t' hfp
        simp only [List.length_cons]
        omega
      | none => rw [hfp] at h; exact absurd h (by simp)

theorem mergeOnce_length (l l' : List Rectangle) (h : mergeOnce l = some l') :
    l'.length + 1 = l.length := by
  induction l generalizing l' with
  | nil => simp [mergeOnce] at h
  | cons a rest ih =>
    rw [mergeOnce] at h
    cases hfp : findPartner a rest with
    | some p =>
      obtain ⟨u, rest'⟩ := p
      rw [hfp] at h
      simp only [Option.some.injEq] at h
      subst h
      have := findPartner_length a rest u rest' hfp
      simp only [List.length_cons]
      omega
    | none =>
      rw [hfp] at h
      cases hmo : mergeOnce rest with
      | some t' =>
        rw [hmo] at h
        simp only [Option.some.injEq] at h
        subst h
        have := ih t' hmo
        simp only [List.length_cons]
        omega
      | none => rw [hmo] at h; exact absurd h (by simp)

/-- With fuel at least the list length, the merge loop reaches a fixpoint:
no pair of the output is still mergeable. -/
theorem mergeLoop_fixpoint (fuel : Nat) (l : List Rectangle)
    (hfuel : l.length ≤ fuel) : mergeOnce (mergeLoop fuel l) = none := by
  induction fuel generalizing l with
  | zero =>
    rw [mergeLoop]
    have : l = [] := List.length_eq_zero.mp (by omega)
    subst this
    rfl
  | succ n ih =>
    rw [mergeLoop]
    cases hmo : mergeOnce l with
    | some l' =>
      have := mergeOnce_length l l' hmo
      exact ih l' (by omega)
    | none => exact hmo

theorem overlap_imp_candidate (a b : Rectangle) (h : rectsOverlap a b = true) :
    intersectsOrAdjacent a b = true := by
  rw [rectsOverlap] at h
  simp only [decide_eq_true_eq] at h
  simp only [intersectsOrAdjacent]
  rw [if_pos ⟨⟨h.1, h.2.1⟩, h.2.2.1, h.2.2.2⟩]

/-- C4 amended: any two distinct output rectangles of the merger either do
not overlap, or their bounding union exceeds the 1.25 area cap (the merge
the fixpoint rejected). -/
theorem mergeRectangles_overlap_only_if_cap (rects : List Rectangle) :
    (mergeRectangles rects).Pairwise
      (fun a b => rectsOverlap a b = true → areaCapExceeded a b = true) := by
  have hfix : mergeOnce (mergeRectangles rects) = none :=
    mergeLoop_fixpoint rects.length rects le_rfl
  rw [mergeOnce_none_iff] at hfix
  refine hfix.imp ?_
  intro a b hnm hov
  by_contra hcap
  exact hnm ⟨overlap_imp_candidate a b hov, by simpa using hcap⟩

/-- C4 as stated is false: ten pairwise-disjoint grid blocks (row-major
differing blocks of a 4 by 4 grid of 10-pixel cells) whose merger output
contains two overlapping rectangles — the area cap rejected their merge and
left them overlapping. -/
theorem mergeRectangles_overlap_cex :
    ([⟨10, 0, 10, 10⟩, ⟨20, 0, 10, 10⟩, ⟨30, 0, 10, 10⟩, ⟨0, 10, 10, 10⟩,
      ⟨20, 10, 10, 10⟩, ⟨30, 10, 10, 10⟩, ⟨0, 20, 10, 10⟩, ⟨10, 20, 10, 10⟩,
      ⟨0, 30, 10, 10⟩, ⟨10, 30, 10, 10⟩] : List Rectangle).Pairwise
        (fun a b => rectsOverlap a b = false) ∧
    mergeRectangles
      [⟨10, 0, 10, 10⟩, ⟨20, 0, 10, 10⟩, ⟨30, 0, 10, 10⟩, ⟨0, 10, 10, 10⟩,
        ⟨20, 10, 10, 10⟩, ⟨30, 10, 10, 10⟩, ⟨0, 20, 10, 10⟩, ⟨10, 20, 10, 10⟩,
        ⟨0, 30, 10, 10⟩, ⟨10, 30, 10, 10⟩] =
      [⟨10, 0, 30, 20⟩, ⟨0, 10, 20, 30⟩] ∧
    rectsOverlap ⟨10, 0, 30, 20⟩ ⟨0, 10, 20, 30⟩ = true := by
  refine ⟨by decide, ?_, by decide⟩
  with_unfolding_all decide

/-! ## Tolerance monotonicity at the block level -/

theorem sampleHit_mono_threshold (base target : RawImageData) (x y : Nat)
    (t1 t2 colorDistThreshold : ℚ) (h12 : t1 ≤ t2) (p : Nat × Nat × Nat)
    (h : sampleHit base target x y t2 colorDistThreshold p = true) :
    sampleHit base target x y t1 colorDistThreshold p = true := by
  simp only [sampleHit] at h ⊢
  by_cases hcd : 0 < colorDistThreshold
  · rwa [if_pos hcd] at h ⊢
  · rw [if_neg hcd] at h ⊢
    simp only [decide_eq_true_eq] at h ⊢
    exact lt_of_le_of_lt h12 h

theorem sampleHit_mono_colorDist (base target : RawImageData) (x y : Nat)
    (threshold cd1 cd2 : ℚ) (h1 : 0 < cd1) (h12 : cd1 ≤ cd2) (p : Nat × Nat × Nat)
    (h : sampleHit base target x y threshold cd2 p = true) :
    sampleHit base target x y threshold cd1 p = true := by
  have h2 : 0 < cd2 := lt_of_lt_of_le h1 h12
  simp only [sampleHit] at h ⊢
  rw [if_pos h2] at h
  rw [if_pos h1]
  simp only [decide_eq_true_eq] at h ⊢
  refine ⟨h.1, lt_of_le_of_lt ?_ h.2⟩
  have := h1.le
  nlinarith [h.2]

theorem isBlockDifferent_imp_of_count_le (base target : RawImageData)
    (x y width height : Nat) (t1 t2 cd1 cd2 toleranceRatio : ℚ)
    (hcnt : diffSampleCount base target x y width height t2 cd2 ≤
      diffSampleCount base target x y width height t1 cd1)
    (h : isBlockDifferent base target x y width height t2 cd2 toleranceRatio = true) :
    isBlockDifferent base target x y width height t1 cd1 toleranceRatio = true := by
  rw [isBlockDifferent, blockScan_eq_true_iff] at h ⊢
  rw [show ((scanPositions height width base.channels).countP
      (sampleHit base target x y t2 cd2)) =
      diffSampleCount base target x y width height t2 cd2 from rfl] at h
  rw [show ((scanPositions height width base.channels).countP
      (sampleHit base target x y t1 cd1)) =
      diffSampleCount base target x y width height t1 cd1 from rfl]
  obtain ⟨h1, h2⟩ := h
  refine ⟨by omega, ?_⟩
  rcases h2 with h2 | h2
  · exact Or.inl h2
  · right
    push_cast at h2 ⊢
    omega

theorem diffSampleCount_mono_threshold (base target : RawImageData)
    (x y width height : Nat) (t1 t2 cd : ℚ) (h12 : t1 ≤ t2) :
    diffSampleCount base target x y width height t2 cd ≤
      diffSampleCount base target x y width height t1 cd :=
  List.countP_mono_left fun p _ => sampleHit_mono_threshold base target x y t1 t2 cd h12 p

theorem diffSampleCount_mono_colorDist (base target : RawImageData)
    (x y width height : Nat) (t cd1 cd2 : ℚ) (h1 : 0 < cd1) (h12 : cd1 ≤ cd2) :
    diffSampleCount base target x y width height t cd2 ≤
      diffSampleCount base target x y width height t cd1 :=
  List.countP_mono_left fun p _ =>
    sampleHit_mono_colorDist base target x y t cd1 cd2 h1 h12 p

theorem isBlockDifferent_mono_ratio (base target : RawImageData)
    (x y width height : Nat) (t cd r1 r2 : ℚ) (h0 : 0 ≤ r1) (h12 : r1 ≤ r2)
    (h : isBlockDifferent base target x y width height t cd r2 = true) :
    isBlockDifferent base target x y width height t cd r1 = true := by
  by_cases hz : r1 = 0
  · subst hz
    rw [isBlockDifferent_eq_true_iff _ _ _ _ _ _ _ _ _ le_rfl]
    rw [isBlockDifferent, blockScan_eq_true_iff] at h
    rw [mul_zero, Int.floor_zero]
    have h1 := h.1
    rw [show ((scanPositions height width base.channels).countP
        (sampleHit base target x y t cd)) =
        diffSampleCount base target x y width height t cd from rfl] at h1
    omega
  · have hr1 : 0 < r1 := lt_of_le_of_ne h0 (Ne.symm hz)
    have hr2 : 0 ≤ r2 := le_trans h0 h12
    rw [isBlockDifferent_eq_true_iff _ _ _ _ _ _ _ _ _ hr2] at h
    rw [isBlockDifferent_eq_true_iff _ _ _ _ _ _ _ _ _ h0]
    have hfl : ⌊(width * height : ℚ) * r1⌋ ≤ ⌊(width * height : ℚ) * r2⌋ := by
      apply Int.floor_le_floor
      have hwh : (0 : ℚ) ≤ (width : ℚ) * height := by positivity
      exact mul_le_mul_of_nonneg_left h12 hwh
    omega

theorem mem_diffBlockList_iff (base target : RawImageData) (blockSize : Nat)
    (t cd r : ℚ) (rect : Rectangle) :
    rect ∈ diffBlockList base target blockSize t cd r ↔
      ∃ y ∈ gridStarts base.height blockSize, ∃ x ∈ gridStarts base.width blockSize,
        isBlockDifferent base target x y (min blockSize (base.width - x))
          (min blockSize (base.height - y)) t cd r = true ∧
        rect = ⟨x, y, min blockSize (base.width - x), min blockSize (base.height - y)⟩ := by
  simp only [diffBlockList, List.mem_flatMap, List.mem_filterMap]
  constructor
  · rintro ⟨y, hy, x, hx, hopt⟩
    rw [Option.ite_none_right_eq_some, Option.some.injEq] at hopt
    exact ⟨y, hy, x, hx, hopt.1, hopt.2.symm⟩
  · rintro ⟨y, hy, x, hx, hd, rfl⟩
    refine ⟨y, hy, x, hx, ?_⟩
    rw [Option.ite_none_right_eq_some, Option.some.injEq]
    exact ⟨hd, rfl⟩

/-- C5 amended: at the block level, raising `diffThreshold` or
`diffToleranceRatio`, or raising `colorDistanceThreshold` between positive
values, never adds a differing block — the reported block set shrinks
pointwise. (The merged patch count and byte size are not monotone, and
raising `colorDistanceThreshold` from zero switches the comparison mode and
can add blocks; see the counterexample.) -/
theorem diffBlocks_param_antitone (base target : RawImageData) (blockSize : Nat) :
    (∀ t1 t2 cd r : ℚ, t1 ≤ t2 →
      ∀ rect ∈ diffBlockList base target blockSize t2 cd r,
        rect ∈ diffBlockList base target blockSize t1 cd r) ∧
    (∀ t cd1 cd2 r : ℚ, 0 < cd1 → cd1 ≤ cd2 →
      ∀ rect ∈ diffBlockList base target blockSize t cd2 r,
        rect ∈ diffBlockList base target blockSize t cd1 r) ∧
    (∀ t cd r1 r2 : ℚ, 0 ≤ r1 → r1 ≤ r2 →
      ∀ rect ∈ diffBlockList base target blockSize t cd r2,
        rect ∈ diffBlockList base target blockSize t cd r1) := by
  refine ⟨?_, ?_, ?_⟩
  · intro t1 t2 cd r h12 rect hm
    rw [mem_diffBlockList_iff] at hm ⊢
    obtain ⟨y, hy, x, hx, hd, rfl⟩ := hm
    refine ⟨y, hy, x, hx, ?_, rfl⟩
    exact isBlockDifferent_imp_of_count_le base target x y _ _ t1 t2 cd cd r
      (diffSampleCount_mono_threshold base target x y _ _ t1 t2 cd h12) hd
  · intro t cd1 cd2 r h1 h12 rect hm
    rw [mem_diffBlockList_iff] at hm ⊢
    obtain ⟨y, hy, x, hx, hd, rfl⟩ := hm
    refine ⟨y, hy, x, hx, ?_, rfl⟩
    exact isBlockDifferent_imp_of_count_le base target x y _ _ t t cd1 cd2 r
      (diffSampleCount_mono_colorDist base target x y _ _ t cd1 cd2 h1 h12) hd
  · intro t cd r1 r2 h0 h12 rect hm
    rw [mem_diffBlockList_iff] at hm ⊢
    obtain ⟨y, hy, x, hx, hd, rfl⟩ := hm
    refine ⟨y, hy, x, hx, ?_, rfl⟩
    exact isBlockDifferent_mono_ratio base target x y _ _ t cd r1 r2 h0 h12 hd

/-- Witness for `diffBlocks_param_antitone` at a concrete image pair. -/
theorem diffBlocks_param_antitone_witness :
    (0 : ℚ) ≤ 1 ∧ (1 : ℚ) ≤ 2 ∧ (0 : ℚ) < 1 ∧
    (∀ rect ∈ diffBlockList ⟨1, 1, 4, [0, 0, 0, 0]⟩ ⟨1, 1, 4, [10, 0, 0, 0]⟩ 32 2 0 0,
      rect ∈ diffBlockList ⟨1, 1, 4, [0, 0, 0, 0]⟩ ⟨1, 1, 4, [10, 0, 0, 0]⟩ 32 1 0 0) ∧
    (∀ rect ∈ diffBlockList ⟨1, 1, 4, [0, 0, 0, 0]⟩ ⟨1, 1, 4, [10, 0, 0, 0]⟩ 32 0 2 0,
      rect ∈ diffBlockList ⟨1, 1, 4, [0, 0, 0, 0]⟩ ⟨1, 1, 4, [10, 0, 0, 0]⟩ 32 0 1 0) ∧
    (∀ rect ∈ diffBlockList ⟨1, 1, 4, [0, 0, 0, 0]⟩ ⟨1, 1, 4, [10, 0, 0, 0]⟩ 32 0 0 2,
      rect ∈ diffBlockList ⟨1, 1, 4, [0, 0, 0, 0]⟩ ⟨1, 1, 4, [10, 0, 0, 0]⟩ 32 0 0 1) := by
  refine ⟨by norm_num, by norm_num, by norm_num, ?_, ?_, ?_⟩
  · exact (diffBlocks_param_antitone ⟨1, 1, 4, [0, 0, 0, 0]⟩
      ⟨1, 1, 4, [10, 0, 0, 0]⟩ 32).1 1 2 0 0 (by norm_num)
  · exact (diffBlocks_param_antitone ⟨1, 1, 4, [0, 0, 0, 0]⟩
      ⟨1, 1, 4, [10, 0, 0, 0]⟩ 32).2.1 0 1 2 0 (by norm_num) (by norm_num)
  · exact (diffBlocks_param_antitone ⟨1, 1, 4, [0, 0, 0, 0]⟩
      ⟨1, 1, 4, [10, 0, 0, 0]⟩ 32).2.2 0 0 1 2 (by norm_num) (by norm_num)

/-- C5 as stated is false: for a fixed 1 by 1 RGBA image pair with per
channel threshold 255, raising `colorDistanceThreshold` from `0` to `1`
switches the comparison into color-distance mode, and the patch count rises
from zero to one (and the patch payload from zero bytes to four). -/
theorem tolerance_monotonicity_cex :
    calculateDiff (fun _ _ _ dta => dta) ⟨1, 1, 4, [0, 0, 0, 0]⟩
        ⟨1, 1, 4, [10, 0, 0, 0]⟩ 32 255 0 0 = .ok [] ∧
    calculateDiff (fun _ _ _ dta => dta) ⟨1, 1, 4, [0, 0, 0, 0]⟩
        ⟨1, 1, 4, [10, 0, 0, 0]⟩ 32 255 1 0 =
      .ok [⟨⟨0, 0, 1, 1⟩, [10, 0, 0, 0]⟩] :=
  ⟨by with_unfolding_all rfl, by with_unfolding_all rfl⟩

/-! ## Patch application channel gate -/

/-- C10: when every patch decodes to four channels (sharp `ensureAlpha` on
the RGB or RGBA PNG payloads this system stores), a 3-channel base image
with a non-empty patch list always fails with the channel-mismatch error,
and a successful reconstruction forces a 4-channel base image or an empty
patch list. -/
theorem applyPatches_channel_gate (pngDecodeEnsureAlpha : Bytes → Nat × Bytes)
    (hpng4 : ∀ b, (pngDecodeEnsureAlpha b).1 = 4)
    (baseImage : RawImageData) (patches : List DiffPatch) :
    (baseImage.channels = 3 → patches ≠ [] →
      applyPatches pngDecodeEnsureAlpha baseImage patches =
        .error "Channel mismatch between base image and patch image") ∧
    (∀ out, applyPatches pngDecodeEnsureAlpha baseImage patches = .ok out →
      baseImage.channels = 4 ∨ patches = []) := by
  constructor
  · intro h3 hne
    cases patches with
    | nil => exact absurd rfl hne
    | cons p rest =>
      rw [applyPatches, applyPatchesLoop]
      rw [if_neg (by rw [hpng4, h3]; omega)]
      rfl
  · intro out hok
    cases patches with
    | nil => exact Or.inr rfl
    | cons p rest =>
      left
      rw [applyPatches, applyPatchesLoop] at hok
      by_cases hc : (pngDecodeEnsureAlpha p.data).1 = baseImage.channels
      · rw [← hc, hpng4]
      · rw [if_neg hc] at hok
        exact absurd hok (by simp [Except.map])

/-- Witness for `applyPatches_channel_gate` on a 3-channel base image. -/
theorem applyPatches_channel_gate_witness :
    (∀ b : Bytes, ((fun _ : Bytes => ((4 : Nat), ([] : Bytes))) b).1 = 4) ∧
    ((⟨1, 1, 3, [0, 0, 0]⟩ : RawImageData).channels = 3 →
      [(⟨⟨0, 0, 1, 1⟩, []⟩ : DiffPatch)] ≠ [] →
      applyPatches (fun _ => (4, [])) ⟨1, 1, 3, [0, 0, 0]⟩ [⟨⟨0, 0, 1, 1⟩, []⟩] =
        .error "Channel mismatch between base image and patch image") ∧
    (∀ out, applyPatches (fun _ => (4, [])) ⟨1, 1, 3, [0, 0, 0]⟩ [⟨⟨0, 0, 1, 1⟩, []⟩] =
        .ok out →
      (⟨1, 1, 3, [0, 0, 0]⟩ : RawImageData).channels = 4 ∨
        [(⟨⟨0, 0, 1, 1⟩, []⟩ : DiffPatch)] = []) :=
  ⟨fun _ => rfl,
    (applyPatches_channel_gate (fun _ => (4, [])) (fun _ => rfl)
      ⟨1, 1, 3, [0, 0, 0]⟩ [⟨⟨0, 0, 1, 1⟩, []⟩]).1,
    (applyPatches_channel_gate (fun _ => (4, [])) (fun _ => rfl)
      ⟨1, 1, 3, [0, 0, 0]⟩ [⟨⟨0, 0, 1, 1⟩, []⟩]).2⟩

/-! ## Incremental mutator behavior -/

/-- C7 evaluated at a failing input: a container with variations `A` and
`B`; removing `A` reports success, yet the returned file content is
byte-identical to the input (the source passes `0` as the `length` argument
of `fileHandle.write`, so the rewritten header is never written), and the
file index still lists the removed name `A`. -/
theorem removeVariations_leaves_file_unchanged_cex :
    removeVariationsFromFile id id (serialize id sampleContainerAB) [[65]] =
      .ok (serialize id sampleContainerAB) ∧
    fileIndexNames id (serialize id sampleContainerAB) = .ok [[65], [66]] :=
  ⟨by with_unfolding_all rfl, by with_unfolding_all rfl⟩

/-- C8: validation precedes the only write of each mutator, so a validation
failure yields the typed error and no new file content (in this embedding
the single end-of-function write is the `.ok` payload, so an error leaves
the on-disk bytes untouched). Removing every variation still present —
in particular the only remaining one — fails with the
cannot-remove-all error; a new name colliding with an existing one fails
`addVariations` with the duplicate error. -/
theorem mutator_validation_error_frame (compress decompress : Bytes → Bytes)
    (file : Bytes) (hdr : HeaderInfo)
    (hparse : parseHeaderWithIndex decompress file = .ok hdr) :
    (∀ names : List Bytes, (∀ v ∈ hdr.variations, v.name ∈ names) →
      removeVariationsFromFile compress decompress file names =
        .error "Cannot remove all variations from CharPack") ∧
    (∀ (newVariations : List VariationMetadata) (baseImage : Bytes)
        (width height channels : Nat),
      (∃ v ∈ newVariations, ∃ e ∈ hdr.variations, e.name = v.name) →
      addVariationsToFile compress decompress file newVariations baseImage
          width height channels =
        .error "Variation already exists in CharPack") := by
  constructor
  · intro names hall
    have hfil : (hdr.variations.filter fun v => ¬ names.contains v.name) = [] := by
      rw [List.filter_eq_nil_iff]
      intro v hv
      simp only [decide_eq_true_eq, not_not]
      exact List.elem_eq_true_of_mem (hall v hv)
    simp only [removeVariationsFromFile, hparse, hfil]
    rfl
  · intro newVariations baseImage width height channels hcol
    have hany : (newVariations.any fun v => hdr.variations.any fun e =>
        e.name == v.name) = true := by
      obtain ⟨v, hv, e, he, hne⟩ := hcol
      rw [List.any_eq_true]
      refine ⟨v, hv, ?_⟩
      rw [List.any_eq_true]
      exact ⟨e, he, by rw [hne, beq_self_eq_true]⟩
    simp only [addVariationsToFile, hparse, hany]
    rfl

/-- Witness for `mutator_validation_error_frame`: a single-variation
container; removing its only variation name errors, and adding a variation
with the same name errors. -/
theorem mutator_validation_error_frame_witness :
    parseHeaderWithIndex id (serialize id sampleContainerA) =
      .ok ⟨1, 1, 4, [0, 0, 0, 0], [⟨[65], 42, 4⟩]⟩ ∧
    removeVariationsFromFile id id (serialize id sampleContainerA) [[65]] =
      .error "Cannot remove all variations from CharPack" ∧
    addVariationsToFile id id (serialize id sampleContainerA)
        [⟨[65], []⟩] [0, 0, 0, 0] 1 1 4 =
      .error "Variation already exists in CharPack" := by
  have hparse : parseHeaderWithIndex id (serialize id sampleContainerA) =
      .ok ⟨1, 1, 4, [0, 0, 0, 0], [⟨[65], 42, 4⟩]⟩ := by
    with_unfolding_all rfl
  refine ⟨hparse, ?_, ?_⟩
  · exact (mutator_validation_error_frame id id _ _ hparse).1 [[65]] (by decide)
  · exact (mutator_validation_error_frame id id _ _ hparse).2 [⟨[65], []⟩]
      [0, 0, 0, 0] 1 1 4 ⟨⟨[65], []⟩, by decide, ⟨[65], 42, 4⟩, by decide, rfl⟩

/-! ## Byte-level read lemmas -/

theorem u32le_length (v : Nat) : (u32le v).length = 4 := rfl

theorem leNat_u32le (v : Nat) (hv : v < 2 ^ 32) : leNat (u32le v) = v := by
  simp only [u32le, leNat]
  omega

theorem readU32_at (buf p s : Bytes) (v off : Nat) (hbuf : buf = p ++ (u32le v ++ s))
    (hoff : off = p.length) (hv : v < 2 ^ 32) : readU32 buf off = v := by
  subst hbuf hoff
  rw [readU32, slice, List.drop_left, List.take_left' (u32le_length v)]
  exact leNat_u32le v hv

theorem readU8_at (buf p s : Bytes) (c off : Nat) (hbuf : buf = p ++ (c :: s))
    (hoff : off = p.length) : readU8 buf off = c := by
  subst hbuf hoff
  rw [readU8, List.getD_append_right p (c :: s) 0 p.length le_rfl]
  simp

theorem slice_at (buf p x s : Bytes) (off n : Nat) (hbuf : buf = p ++ (x ++ s))
    (hoff : off = p.length) (hn : x.length = n) : slice buf off n = x := by
  subst hbuf hoff
  rw [slice, List.drop_left, List.take_left' hn]

theorem indexEntriesBytes_length (infos : List (Bytes × Nat)) :
    ∀ start, (indexEntriesBytes start infos).length =
      (infos.map fun i => 4 + i.1.length + 4 + 4).sum := by
  induction infos with
  | nil => intro start; rfl
  | cons i t ih =>
    intro start
    obtain ⟨name, bsize⟩ := i
    simp only [indexEntriesBytes, List.map_cons, List.sum_cons, List.length_append,
      u32le_length, ih]

theorem indexSizeOf_eq_sum (infos : List (Bytes × Nat)) :
    indexSizeOf infos = (infos.map fun i => 4 + i.1.length + 4 + 4).sum := by
  rw [indexSizeOf]
  suffices h : ∀ acc, infos.foldl (fun acc info => acc + 4 + info.1.length + 4 + 4) acc =
      acc + (infos.map fun i => 4 + i.1.length + 4 + 4).sum by
    simpa using h 0
  induction infos with
  | nil => intro acc; simp
  | cons i t ih =>
    intro acc
    simp only [List.foldl_cons, List.map_cons, List.sum_cons, ih]
    omega

theorem headerBytes_length (compress : Bytes → Bytes) (d : CharPackData) :
    (headerBytes compress d).length = 25 + (compress d.baseImage).length := by
  simp only [headerBytes, List.length_append, u32le_length, MAGIC]
  simp
  omega

theorem serialize_decompose (compress : Bytes → Bytes) (d : CharPackData) :
    serialize compress d =
      headerBytes compress d ++
        (indexEntriesBytes (firstBlockOffset compress d) (blockInfos compress d) ++
          d.variations.flatMap (patchBlockBytes compress)) := by
  rw [serialize, firstBlockOffset, List.append_assoc]

theorem serialize_length (compress : Bytes → Bytes) (d : CharPackData) :
    (serialize compress d).length =
      firstBlockOffset compress d +
        (d.variations.map fun v => (patchBlockBytes compress v).length).sum := by
  rw [serialize_decompose, List.length_append, List.length_append,
    indexEntriesBytes_length, firstBlockOffset, indexSizeOf_eq_sum,
    List.length_flatMap]
  have hmap : List.map (List.length ∘ patchBlockBytes compress) d.variations =
      d.variations.map fun v => (patchBlockBytes compress v).length := rfl
  rw [hmap]
  omega

/-! ## Index metadata lemmas -/

theorem indexMeta_cons (name : Bytes) (bsize start : Nat) (t : List (Bytes × Nat)) :
    indexMeta start ((name, bsize) :: t) =
      ⟨name, start, bsize⟩ :: indexMeta (start + bsize) t := rfl

theorem indexMeta_names (infos : List (Bytes × Nat)) :
    ∀ start, (indexMeta start infos).map (·.name) = infos.map (·.1) := by
  induction infos with
  | nil => intro start; rfl
  | cons i t ih =>
    intro start
    obtain ⟨name, bsize⟩ := i
    simp only [indexMeta_cons, List.map_cons, ih]

theorem indexMeta_mem_bounds (infos : List (Bytes × Nat)) :
    ∀ start, ∀ e ∈ indexMeta start infos,
      start ≤ e.offset ∧ e.offset + e.size ≤ start + (infos.map (·.2)).sum := by
  induction infos with
  | nil => intro start e he; simp [indexMeta] at he
  | cons i t ih =>
    intro start e he
    obtain ⟨name, bsize⟩ := i
    rw [indexMeta_cons] at he
    rcases List.mem_cons.mp he with rfl | he
    · have : 0 ≤ (t.map (·.2)).sum := Nat.zero_le _
      simp only [List.map_cons, List.sum_cons]
      omega
    · have := ih (start + bsize) e he
      simp only [List.map_cons, List.sum_cons]
      omega

theorem indexMeta_pairwise (infos : List (Bytes × Nat)) :
    ∀ start, (indexMeta start infos).Pairwise
      (fun a b => a.offset + a.size ≤ b.offset) := by
  induction infos with
  | nil => intro start; simp [indexMeta]
  | cons i t ih =>
    intro start
    obtain ⟨name, bsize⟩ := i
    rw [indexMeta_cons, List.pairwise_cons]
    refine ⟨?_, ih (start + bsize)⟩
    intro e he
    have := (indexMeta_mem_bounds t (start + bsize) e he).1
    simp only
    omega

/-- The index-reading loop recovers exactly the entries the serializer laid
out, for any surrounding buffer. -/
theorem parseIndexEntries_spec (infos : List (Bytes × Nat)) :
    ∀ (start : Nat) (p s buf : Bytes),
      buf = p ++ (indexEntriesBytes start infos ++ s) →
      (∀ e ∈ indexMeta start infos,
        e.name.length < 2 ^ 32 ∧ e.offset < 2 ^ 32 ∧ e.size < 2 ^ 32) →
      parseIndexEntries buf p.length infos.length = indexMeta start infos := by
  induction infos with
  | nil => intro start p s buf _ _; rfl
  | cons i t ih =>
    intro start p s buf hbuf hb
    obtain ⟨name, bsize⟩ := i
    have hbhead := hb ⟨name, start, bsize⟩ (by rw [indexMeta_cons]; exact List.mem_cons_self _ _)
    have h1 : readU32 buf p.length = name.length :=
      readU32_at buf p
        (name ++ (u32le start ++ (u32le bsize ++ (indexEntriesBytes (start + bsize) t ++ s))))
        name.length p.length
        (by rw [hbuf, indexEntriesBytes]; simp [List.append_assoc]) rfl hbhead.1
    have h2 : slice buf (p.length + 4) name.length = name :=
      slice_at buf (p ++ u32le name.length) name
        (u32le start ++ (u32le bsize ++ (indexEntriesBytes (start + bsize) t ++ s)))
        (p.length + 4) name.length
        (by rw [hbuf, indexEntriesBytes]; simp [List.append_assoc])
        (by simp [u32le_length]) rfl
    have h3 : readU32 buf (p.length + 4 + name.length) = start :=
      readU32_at buf (p ++ (u32le name.length ++ name))
        (u32le bsize ++ (indexEntriesBytes (start + bsize) t ++ s)) start
        (p.length + 4 + name.length)
        (by rw [hbuf, indexEntriesBytes]; simp [List.append_assoc])
        (by simp [u32le_length]; omega) hbhead.2.1
    have h4 : readU32 buf (p.length + 4 + name.length + 4) = bsize :=
      readU32_at buf (p ++ (u32le name.length ++ (name ++ u32le start)))
        (indexEntriesBytes (start + bsize) t ++ s) bsize
        (p.length + 4 + name.length + 4)
        (by rw [hbuf, indexEntriesBytes]; simp [List.append_assoc])
        (by simp [u32le_length]; omega) hbhead.2.2
    have h5 : parseIndexEntries buf (p.length + 4 + name.length + 8) t.length =
        indexMeta (start + bsize) t := by
      have hlen : (p ++ (u32le name.length ++ (name ++ (u32le start ++ u32le bsize)))).length =
          p.length + 4 + name.length + 8 := by
        simp [u32le_length]
        omega
      rw [← hlen]
      exact ih (start + bsize)
        (p ++ (u32le name.length ++ (name ++ (u32le start ++ u32le bsize)))) s buf
        (by rw [hbuf, indexEntriesBytes]; simp [List.append_assoc])
        (fun e he => hb e (by rw [indexMeta_cons]; exact List.mem_cons_of_mem _ he))
    rw [List.length_cons, parseIndexEntries]
    rw [h1, h2, h3, h4, h5, indexMeta_cons]

/-! ## Patch block parsing -/

theorem patchBytes_length (compress : Bytes → Bytes) (q : DiffPatch) :
    (patchBytes compress q).length = 20 + (compress q.data).length := by
  simp [patchBytes, u32le_length]
  omega

/-- The patch-reading loop recovers exactly the patches the serializer laid
out, for any surrounding buffer, provided the byte compressor is lossless
and every written value fits 32 bits. -/
theorem parsePatches_spec (compress decompress : Bytes → Bytes)
    (hcd : ∀ b, decompress (compress b) = b) (patches : List DiffPatch) :
    ∀ (p s buf : Bytes),
      buf = p ++ (patches.flatMap (patchBytes compress) ++ s) →
      (∀ q ∈ patches, q.rect.x < 2 ^ 32 ∧ q.rect.y < 2 ^ 32 ∧
        q.rect.width < 2 ^ 32 ∧ q.rect.height < 2 ^ 32 ∧
        (compress q.data).length < 2 ^ 32) →
      parsePatches decompress buf p.length patches.length = patches := by
  induction patches with
  | nil => intro p s buf _ _; rfl
  | cons q t ih =>
    intro p s buf hbuf hb
    obtain ⟨⟨qx, qy, qw, qh⟩, qdata⟩ := q
    have hbq := hb _ (List.mem_cons_self _ _)
    simp only at hbq
    have hflat : buf = p ++ ((u32le qx ++ (u32le qy ++ (u32le qw ++ (u32le qh ++
        (u32le (compress qdata).length ++ compress qdata))))) ++
        (t.flatMap (patchBytes compress) ++ s)) := by
      rw [hbuf, List.flatMap_cons, patchBytes]
      simp [List.append_assoc]
    have h1 : readU32 buf p.length = qx :=
      readU32_at buf p
        (u32le qy ++ (u32le qw ++ (u32le qh ++ (u32le (compress qdata).length ++
          (compress qdata ++ (t.flatMap (patchBytes compress) ++ s))))))
        qx p.length (by rw [hflat]; simp [List.append_assoc]) rfl hbq.1
    have h2 : readU32 buf (p.length + 4) = qy :=
      readU32_at buf (p ++ u32le qx)
        (u32le qw ++ (u32le qh ++ (u32le (compress qdata).length ++
          (compress qdata ++ (t.flatMap (patchBytes compress) ++ s)))))
        qy (p.length + 4)
        (by rw [hflat]; simp [List.append_assoc]) (by simp [u32le_length]) hbq.2.1
    have h3 : readU32 buf (p.length + 8) = qw :=
      readU32_at buf (p ++ (u32le qx ++ u32le qy))
        (u32le qh ++ (u32le (compress qdata).length ++
          (compress qdata ++ (t.flatMap (patchBytes compress) ++ s))))
        qw (p.length + 8)
        (by rw [hflat]; simp [List.append_assoc]) (by simp [u32le_length]) hbq.2.2.1
    have h4 : readU32 buf (p.length + 12) = qh :=
      readU32_at buf (p ++ (u32le qx ++ (u32le qy ++ u32le qw)))
        (u32le (compress qdata).length ++
          (compress qdata ++ (t.flatMap (patchBytes compress) ++ s)))
        qh (p.length + 12)
        (by rw [hflat]; simp [List.append_assoc]) (by simp [u32le_length]) hbq.2.2.2.1
    have h5 : readU32 buf (p.length + 16) = (compress qdata).length :=
      readU32_at buf (p ++ (u32le qx ++ (u32le qy ++ (u32le qw ++ u32le qh))))
        (compress qdata ++ (t.flatMap (patchBytes compress) ++ s))
        (compress qdata).length (p.length + 16)
        (by rw [hflat]; simp [List.append_assoc]) (by simp [u32le_length]) hbq.2.2.2.2
    have h6 : slice buf (p.length + 20) (compress qdata).length = compress qdata :=
      slice_at buf
        (p ++ (u32le qx ++ (u32le qy ++ (u32le qw ++ (u32le qh ++
          u32le (compress qdata).length))))) (compress qdata)
        (t.flatMap (patchBytes compress) ++ s)
        (p.length + 20) (compress qdata).length
        (by rw [hflat]; simp [List.append_assoc]) (by simp [u32le_length]) rfl
    have h7 : parsePatches decompress buf (p.length + 20 + (compress qdata).length)
        t.length = t := by
      have hlen : (p ++ patchBytes compress ⟨⟨qx, qy, qw, qh⟩, qdata⟩).length =
          p.length + 20 + (compress qdata).length := by
        simp only [List.length_append, patchBytes_length]
        omega
      rw [← hlen]
      exact ih (p ++ patchBytes compress ⟨⟨qx, qy, qw, qh⟩, qdata⟩) s buf
        (by rw [hbuf, List.flatMap_cons]; simp [List.append_assoc])
        (fun q hq => hb q (List.mem_cons_of_mem _ hq))
    rw [List.length_cons, parsePatches]
    rw [h1, h2, h3, h4, h5, h6, h7, hcd]

/-! ## Variation block layout -/

theorem indexMeta_mem_exists (infos : List (Bytes × Nat)) :
    ∀ start, ∀ e ∈ indexMeta start infos, ∃ i ∈ infos, e.name = i.1 ∧ e.size = i.2 := by
  induction infos with
  | nil => intro start e he; simp [indexMeta] at he
  | cons i t ih =>
    intro start e he
    obtain ⟨name, bsize⟩ := i
    rw [indexMeta_cons] at he
    rcases List.mem_cons.mp he with rfl | he
    · exact ⟨(name, bsize), List.mem_cons_self _ _, rfl, rfl⟩
    · obtain ⟨j, hj, hn, hs⟩ := ih (start + bsize) e he
      exact ⟨j, List.mem_cons_of_mem _ hj, hn, hs⟩

/-- Each index entry of the serialized layout points at a prefix of the
buffer after which its variation block lies verbatim. -/
theorem serializeBlocks_decompose (compress : Bytes → Bytes)
    (vars : List VariationMetadata) :
    ∀ (start : Nat) (p s buf : Bytes),
      buf = p ++ (vars.flatMap (patchBlockBytes compress) ++ s) →
      p.length = start →
      List.Forall₂ (fun (e : VariationIndex) (v : VariationMetadata) =>
        e.name = v.name ∧ e.size = (patchBlockBytes compress v).length ∧
        ∃ q r, buf = q ++ (patchBlockBytes compress v ++ r) ∧ q.length = e.offset)
        (indexMeta start (vars.map fun v => (v.name, (patchBlockBytes compress v).length)))
        vars := by
  induction vars with
  | nil => intro start p s buf _ _; exact List.Forall₂.nil
  | cons v t ih =>
    intro start p s buf hbuf hp
    rw [List.map_cons, indexMeta_cons]
    refine List.Forall₂.cons ⟨rfl, rfl, p, t.flatMap (patchBlockBytes compress) ++ s,
      ?_, hp⟩ ?_
    · rw [hbuf, List.flatMap_cons]
      simp [List.append_assoc]
    · refine ih (start + (patchBlockBytes compress v).length)
        (p ++ patchBlockBytes compress v) s buf ?_ ?_
      · rw [hbuf, List.flatMap_cons]
        simp [List.append_assoc]
      · rw [List.length_append, hp]

/-- The patch count and patch list recovered at an entry of the layout, and
the byte slice of its block. -/
theorem entry_block_facts (compress decompress : Bytes → Bytes)
    (hcd : ∀ b, decompress (compress b) = b) (buf : Bytes)
    (e : VariationIndex) (v : VariationMetadata)
    (hname : e.name = v.name) (hsize : e.size = (patchBlockBytes compress v).length)
    (q r : Bytes) (hq : buf = q ++ (patchBlockBytes compress v ++ r))
    (hqlen : q.length = e.offset)
    (hcount : v.patches.length < 2 ^ 32)
    (hpb : ∀ pa ∈ v.patches, pa.rect.x < 2 ^ 32 ∧ pa.rect.y < 2 ^ 32 ∧
      pa.rect.width < 2 ^ 32 ∧ pa.rect.height < 2 ^ 32 ∧
      (compress pa.data).length < 2 ^ 32) :
    readU32 buf e.offset = v.patches.length ∧
    parsePatches decompress buf (e.offset + 4) v.patches.length = v.patches ∧
    slice buf e.offset e.size = patchBlockBytes compress v := by
  refine ⟨?_, ?_, ?_⟩
  · exact readU32_at buf q (v.patches.flatMap (patchBytes compress) ++ r)
      v.patches.length e.offset
      (by rw [hq, patchBlockBytes]; simp [List.append_assoc]) hqlen.symm hcount
  · have hlen : (q ++ u32le v.patches.length).length = e.offset + 4 := by
      rw [List.length_append, u32le_length, hqlen]
    rw [← hlen]
    exact parsePatches_spec compress decompress hcd v.patches
      (q ++ u32le v.patches.length) r buf
      (by rw [hq, patchBlockBytes]; simp [List.append_assoc]) hpb
  · exact slice_at buf q (patchBlockBytes compress v) r e.offset e.size
      hq hqlen.symm hsize.symm

/-! ## Header parse roundtrip -/

theorem blockInfos_snd (compress : Bytes → Bytes) (d : CharPackData) :
    (blockInfos compress d).map (·.2) =
      d.variations.map fun v => (patchBlockBytes compress v).length := by
  simp [blockInfos]

theorem blockInfos_length (compress : Bytes → Bytes) (d : CharPackData) :
    (blockInfos compress d).length = d.variations.length := by
  simp [blockInfos]

/-- Every index entry of the serialized layout is 32-bit bounded when the
container is. -/
theorem serializeIndex_bounded (compress : Bytes → Bytes) (d : CharPackData)
    (hb : SerializeBounded compress d) :
    ∀ e ∈ indexMeta (firstBlockOffset compress d) (blockInfos compress d),
      e.name.length < 2 ^ 32 ∧ e.offset < 2 ^ 32 ∧ e.size < 2 ^ 32 := by
  obtain ⟨-, -, -, -, hvars, htot⟩ := hb
  intro e he
  have hoff := indexMeta_mem_bounds (blockInfos compress d) (firstBlockOffset compress d) e he
  rw [blockInfos_snd] at hoff
  rw [serialize_length] at htot
  obtain ⟨i, hi, hn, hs⟩ := indexMeta_mem_exists (blockInfos compress d) _ e he
  obtain ⟨v, hv, rfl⟩ := List.mem_map.mp hi
  refine ⟨?_, by omega, by omega⟩
  rw [hn]
  exact (hvars v hv).1

theorem parseHeaderWithIndex_serialize (compress decompress : Bytes → Bytes)
    (d : CharPackData) (hb : SerializeBounded compress d) :
    parseHeaderWithIndex decompress (serialize compress d) =
      .ok ⟨d.width, d.height, channelsOf d % 256, decompress (compress d.baseImage),
        indexMeta (firstBlockOffset compress d) (blockInfos compress d)⟩ := by
  obtain ⟨hw, hh, hcb, hvc, hvars, htot⟩ := hb
  have hdec : serialize compress d = MAGIC ++ (u32le VERSION ++ (u32le d.width ++
      (u32le d.height ++ ((channelsOf d % 256) :: (u32le (compress d.baseImage).length ++
      (compress d.baseImage ++ (u32le d.variations.length ++
      (indexEntriesBytes (firstBlockOffset compress d) (blockInfos compress d) ++
        d.variations.flatMap (patchBlockBytes compress))))))))) := by
    rw [serialize_decompose, headerBytes]
    simp [List.append_assoc]
  have hmagic : slice (serialize compress d) 0 4 = MAGIC :=
    slice_at _ [] MAGIC
      (u32le VERSION ++ (u32le d.width ++ (u32le d.height ++
        ((channelsOf d % 256) :: (u32le (compress d.baseImage).length ++
        (compress d.baseImage ++ (u32le d.variations.length ++
        (indexEntriesBytes (firstBlockOffset compress d) (blockInfos compress d) ++
          d.variations.flatMap (patchBlockBytes compress)))))))))
      0 4 (by rw [hdec]; rfl) rfl rfl
  have hversion : readU32 (serialize compress d) 4 = VERSION :=
    readU32_at _ MAGIC
      (u32le d.width ++ (u32le d.height ++
        ((channelsOf d % 256) :: (u32le (compress d.baseImage).length ++
        (compress d.baseImage ++ (u32le d.variations.length ++
        (indexEntriesBytes (firstBlockOffset compress d) (blockInfos compress d) ++
          d.variations.flatMap (patchBlockBytes compress))))))))
      VERSION 4 (by rw [hdec]) rfl (by norm_num [VERSION])
  have hwidth : readU32 (serialize compress d) 8 = d.width :=
    readU32_at _ (MAGIC ++ u32le VERSION)
      (u32le d.height ++
        ((channelsOf d % 256) :: (u32le (compress d.baseImage).length ++
        (compress d.baseImage ++ (u32le d.variations.length ++
        (indexEntriesBytes (firstBlockOffset compress d) (blockInfos compress d) ++
          d.variations.flatMap (patchBlockBytes compress)))))))
      d.width 8
      (by rw [hdec]; simp [List.append_assoc]) (by simp [u32le_length, MAGIC]) hw
  have hheight : readU32 (serialize compress d) 12 = d.height :=
    readU32_at _ (MAGIC ++ (u32le VERSION ++ u32le d.width))
      ((channelsOf d % 256) :: (u32le (compress d.baseImage).length ++
        (compress d.baseImage ++ (u32le d.variations.length ++
        (indexEntriesBytes (firstBlockOffset compress d) (blockInfos compress d) ++
          d.variations.flatMap (patchBlockBytes compress))))))
      d.height 12
      (by rw [hdec]; simp [List.append_assoc]) (by simp [u32le_length, MAGIC]) hh
  have hchan : readU8 (serialize compress d) 16 = channelsOf d % 256 :=
    readU8_at _ (MAGIC ++ (u32le VERSION ++ (u32le d.width ++ u32le d.height)))
      (u32le (compress d.baseImage).length ++
        (compress d.baseImage ++ (u32le d.variations.length ++
        (indexEntriesBytes (firstBlockOffset compress d) (blockInfos compress d) ++
          d.variations.flatMap (patchBlockBytes compress)))))
      (channelsOf d % 256) 16
      (by rw [hdec]; simp [List.append_assoc]) (by simp [u32le_length, MAGIC])
  have hbsize : readU32 (serialize compress d) 17 = (compress d.baseImage).length :=
    readU32_at _ (MAGIC ++ (u32le VERSION ++ (u32le d.width ++ (u32le d.height ++
        [channelsOf d % 256]))))
      (compress d.baseImage ++ (u32le d.variations.length ++
        (indexEntriesBytes (firstBlockOffset compress d) (blockInfos compress d) ++
          d.variations.flatMap (patchBlockBytes compress))))
      (compress d.baseImage).length 17
      (by rw [hdec]; simp [List.append_assoc]) (by simp [u32le_length, MAGIC]) hcb
  have hbase : slice (serialize compress d) 21 (compress d.baseImage).length =
      compress d.baseImage :=
    slice_at _ (MAGIC ++ (u32le VERSION ++ (u32le d.width ++ (u32le d.height ++
        ((channelsOf d % 256) :: u32le (compress d.baseImage).length)))))
      (compress d.baseImage)
      (u32le d.variations.length ++
        (indexEntriesBytes (firstBlockOffset compress d) (blockInfos compress d) ++
          d.variations.flatMap (patchBlockBytes compress)))
      21 (compress d.baseImage).length
      (by rw [hdec]; simp [List.append_assoc]) (by simp [u32le_length, MAGIC]) rfl
  have hvarcount : readU32 (serialize compress d)
      (21 + (compress d.baseImage).length) = d.variations.length :=
    readU32_at _ (MAGIC ++ (u32le VERSION ++ (u32le d.width ++ (u32le d.height ++
        ((channelsOf d % 256) :: (u32le (compress d.baseImage).length ++
          compress d.baseImage))))))
      (indexEntriesBytes (firstBlockOffset compress d) (blockInfos compress d) ++
        d.variations.flatMap (patchBlockBytes compress))
      d.variations.length (21 + (compress d.baseImage).length)
      (by rw [hdec]; simp [List.append_assoc])
      (by simp [u32le_length, MAGIC]; omega) hvc
  have hidx : parseIndexEntries (serialize compress d)
      (21 + (compress d.baseImage).length + 4) d.variations.length =
      indexMeta (firstBlockOffset compress d) (blockInfos compress d) := by
    have h25 : 21 + (compress d.baseImage).length + 4 =
        (headerBytes compress d).length := by
      rw [headerBytes_length]
      omega
    have hcnt : d.variations.length = (blockInfos compress d).length :=
      (blockInfos_length compress d).symm
    rw [h25, hcnt]
    exact parseIndexEntries_spec (blockInfos compress d) (firstBlockOffset compress d)
      (headerBytes compress d) (d.variations.flatMap (patchBlockBytes compress)) _
      (serialize_decompose compress d)
      (serializeIndex_bounded compress d ⟨hw, hh, hcb, hvc, hvars, htot⟩)
  rw [parseHeaderWithIndex]
  rw [if_neg (fun hc => hc hmagic)]
  rw [if_neg (fun hc => hc hversion)]
  simp only [hwidth, hheight, hchan, hbsize, hbase, hvarcount, hidx]

/-! ## Deserialize/serialize roundtrip -/

/-- The block decomposition instantiated at the serialized buffer. -/
theorem serialize_blocks_forall₂ (compress : Bytes → Bytes) (d : CharPackData) :
    List.Forall₂ (fun (e : VariationIndex) (v : VariationMetadata) =>
      e.name = v.name ∧ e.size = (patchBlockBytes compress v).length ∧
      ∃ q r, serialize compress d = q ++ (patchBlockBytes compress v ++ r) ∧
        q.length = e.offset)
      (indexMeta (firstBlockOffset compress d) (blockInfos compress d))
      d.variations := by
  have hshape : serialize compress d =
      (headerBytes compress d ++
        indexEntriesBytes (firstBlockOffset compress d) (blockInfos compress d)) ++
        (d.variations.flatMap (patchBlockBytes compress) ++ []) := by
    rw [serialize_decompose]
    simp [List.append_assoc]
  have hplen : (headerBytes compress d ++
      indexEntriesBytes (firstBlockOffset compress d) (blockInfos compress d)).length =
      firstBlockOffset compress d := by
    rw [List.length_append, indexEntriesBytes_length, firstBlockOffset,
      indexSizeOf_eq_sum]
  exact serializeBlocks_decompose compress d.variations (firstBlockOffset compress d)
    (headerBytes compress d ++
      indexEntriesBytes (firstBlockOffset compress d) (blockInfos compress d))
    [] (serialize compress d) hshape hplen

theorem variations_map_parse (compress decompress : Bytes → Bytes)
    (hcd : ∀ b, decompress (compress b) = b) (buf : Bytes) :
    ∀ (entries : List VariationIndex) (vars : List VariationMetadata),
      List.Forall₂ (fun (e : VariationIndex) (v : VariationMetadata) =>
        e.name = v.name ∧ e.size = (patchBlockBytes compress v).length ∧
        ∃ q r, buf = q ++ (patchBlockBytes compress v ++ r) ∧ q.length = e.offset)
        entries vars →
      (∀ v ∈ vars, v.patches.length < 2 ^ 32 ∧
        ∀ pa ∈ v.patches, pa.rect.x < 2 ^ 32 ∧ pa.rect.y < 2 ^ 32 ∧
          pa.rect.width < 2 ^ 32 ∧ pa.rect.height < 2 ^ 32 ∧
          (compress pa.data).length < 2 ^ 32) →
      entries.map (fun e =>
        (⟨e.name, parsePatches decompress buf (e.offset + 4) (readU32 buf e.offset)⟩ :
          VariationMetadata)) = vars := by
  intro entries vars h
  induction h with
  | nil => intro _; rfl
  | @cons e v te tv hrel _ ih =>
    intro hbounds
    obtain ⟨hname, hsize, q, r, hq, hqlen⟩ := hrel
    obtain ⟨hcount, hpb⟩ := hbounds v (List.mem_cons_self _ _)
    have hfacts := entry_block_facts compress decompress hcd buf e v hname hsize
      q r hq hqlen hcount hpb
    rw [List.map_cons]
    rw [ih (fun v hv => hbounds v (List.mem_cons_of_mem _ hv))]
    obtain ⟨hc, hp, -⟩ := hfacts
    rw [hc, hp, hname]

/-- Deserializing a serialized container recovers it exactly (the stored
version is the codec constant), provided the byte compressor is a lossless
pair and the container is 32-bit bounded. -/
theorem deserialize_serialize (compress decompress : Bytes → Bytes)
    (hcd : ∀ b, decompress (compress b) = b) (d : CharPackData)
    (hb : SerializeBounded compress d) :
    deserialize decompress (serialize compress d) =
      .ok ⟨VERSION, d.width, d.height, d.baseImage, d.variations⟩ := by
  rw [deserialize, parseHeaderWithIndex_serialize compress decompress d hb]
  simp only [Except.map]
  have hvars : (indexMeta (firstBlockOffset compress d) (blockInfos compress d)).map
      (fun e =>
        (⟨e.name, parsePatches decompress (serialize compress d) (e.offset + 4)
          (readU32 (serialize compress d) e.offset)⟩ : VariationMetadata)) =
      d.variations :=
    variations_map_parse compress decompress hcd (serialize compress d)
      _ _ (serialize_blocks_forall₂ compress d)
      (fun v hv => ⟨(hb.2.2.2.2.1 v hv).2.1, (hb.2.2.2.2.1 v hv).2.2⟩)
  rw [hvars, hcd]

/-! ## Index consistency -/

/-- C6: the serialized byte stream has a consistent index: the parsed
entries are exactly the sequentially accumulated offsets starting right
after header plus index table, each entry's byte range holds exactly its
variation's block, every range ends within the output, and the ranges are
pairwise disjoint. -/
theorem serialize_index_consistent (compress decompress : Bytes → Bytes)
    (d : CharPackData) (hb : SerializeBounded compress d) :
    ∃ hdr, parseHeaderWithIndex decompress (serialize compress d) = .ok hdr ∧
      hdr.variations = indexMeta (firstBlockOffset compress d) (blockInfos compress d) ∧
      List.Forall₂ (fun (e : VariationIndex) (v : VariationMetadata) =>
        e.name = v.name ∧ e.size = (patchBlockBytes compress v).length ∧
        slice (serialize compress d) e.offset e.size = patchBlockBytes compress v)
        hdr.variations d.variations ∧
      (∀ e ∈ hdr.variations, e.offset + e.size ≤ (serialize compress d).length) ∧
      hdr.variations.Pairwise (fun a b => a.offset + a.size ≤ b.offset) := by
  refine ⟨_, parseHeaderWithIndex_serialize compress decompress d hb, rfl, ?_, ?_, ?_⟩
  · refine (serialize_blocks_forall₂ compress d).imp ?_
    rintro e v ⟨hname, hsize, q, r, hq, hqlen⟩
    exact ⟨hname, hsize, slice_at _ q (patchBlockBytes compress v) r _ _ hq
      hqlen.symm hsize.symm⟩
  · intro e he
    have := indexMeta_mem_bounds (blockInfos compress d) (firstBlockOffset compress d) e he
    rw [blockInfos_snd] at this
    rw [serialize_length]
    omega
  · exact indexMeta_pairwise (blockInfos compress d) (firstBlockOffset compress d)

/-- Witness for `serialize_index_consistent` at a concrete container. -/
theorem serialize_index_consistent_witness :
    ∃ hdr, parseHeaderWithIndex id (serialize id sampleContainerAB) = .ok hdr ∧
      hdr.variations = indexMeta (firstBlockOffset id sampleContainerAB)
        (blockInfos id sampleContainerAB) ∧
      List.Forall₂ (fun (e : VariationIndex) (v : VariationMetadata) =>
        e.name = v.name ∧ e.size = (patchBlockBytes id v).length ∧
        slice (serialize id sampleContainerAB) e.offset e.size = patchBlockBytes id v)
        hdr.variations sampleContainerAB.variations ∧
      (∀ e ∈ hdr.variations,
        e.offset + e.size ≤ (serialize id sampleContainerAB).length) ∧
      hdr.variations.Pairwise (fun a b => a.offset + a.size ≤ b.offset) :=
  serialize_index_consistent id id sampleContainerAB
    (by constructor <;> [decide; constructor <;>
      [decide; constructor <;> [decide; constructor <;> [decide; constructor <;> decide]]]])

/-! ## Adding variations -/

theorem extractVariationBlock_spec (compress decompress : Bytes → Bytes)
    (hcd : ∀ b, decompress (compress b) = b) (buf : Bytes)
    (e : VariationIndex) (v : VariationMetadata)
    (hname : e.name = v.name) (hsize : e.size = (patchBlockBytes compress v).length)
    (q r : Bytes) (hq : buf = q ++ (patchBlockBytes compress v ++ r))
    (hqlen : q.length = e.offset)
    (hcount : v.patches.length < 2 ^ 32)
    (hpb : ∀ pa ∈ v.patches, pa.rect.x < 2 ^ 32 ∧ pa.rect.y < 2 ^ 32 ∧
      pa.rect.width < 2 ^ 32 ∧ pa.rect.height < 2 ^ 32 ∧
      (compress pa.data).length < 2 ^ 32) :
    extractVariationBlock decompress buf e = ⟨v.name, v.patches⟩ := by
  have hslice : slice buf e.offset e.size = patchBlockBytes compress v :=
    slice_at _ q (patchBlockBytes compress v) r _ _ hq hqlen.symm hsize.symm
  rw [extractVariationBlock, hslice]
  have hc : readU32 (patchBlockBytes compress v) 0 = v.patches.length :=
    readU32_at _ [] (v.patches.flatMap (patchBytes compress)) _ 0
      (by rw [patchBlockBytes]; rfl) rfl hcount
  have hp : parsePatches decompress (patchBlockBytes compress v) 4
      v.patches.length = v.patches := by
    have h4 : (4 : Nat) = (u32le v.patches.length).length := (u32le_length _).symm
    rw [h4]
    exact parsePatches_spec compress decompress hcd v.patches
      (u32le v.patches.length) [] _ (by rw [patchBlockBytes]; simp) hpb
  rw [hc, hp, hname]

theorem variations_map_extract (compress decompress : Bytes → Bytes)
    (hcd : ∀ b, decompress (compress b) = b) (buf : Bytes) :
    ∀ (entries : List VariationIndex) (vars : List VariationMetadata),
      List.Forall₂ (fun (e : VariationIndex) (v : VariationMetadata) =>
        e.name = v.name ∧ e.size = (patchBlockBytes compress v).length ∧
        ∃ q r, buf = q ++ (patchBlockBytes compress v ++ r) ∧ q.length = e.offset)
        entries vars →
      (∀ v ∈ vars, v.patches.length < 2 ^ 32 ∧
        ∀ pa ∈ v.patches, pa.rect.x < 2 ^ 32 ∧ pa.rect.y < 2 ^ 32 ∧
          pa.rect.width < 2 ^ 32 ∧ pa.rect.height < 2 ^ 32 ∧
          (compress pa.data).length < 2 ^ 32) →
      entries.map (extractVariationBlock decompress buf) = vars := by
  intro entries vars h
  induction h with
  | nil => intro _; rfl
  | @cons e v te tv hrel _ ih =>
    intro hbounds
    obtain ⟨hname, hsize, q, r, hq, hqlen⟩ := hrel
    obtain ⟨hcount, hpb⟩ := hbounds v (List.mem_cons_self _ _)
    rw [List.map_cons,
      extractVariationBlock_spec compress decompress hcd buf e v hname hsize
        q r hq hqlen hcount hpb,
      ih (fun v hv => hbounds v (List.mem_cons_of_mem _ hv))]

/-- Name membership transfers between the parsed index and the container. -/
theorem serializeIndex_name_mem (compress : Bytes → Bytes) (d : CharPackData)
    (e : VariationIndex)
    (he : e ∈ indexMeta (firstBlockOffset compress d) (blockInfos compress d)) :
    ∃ v ∈ d.variations, e.name = v.name := by
  obtain ⟨i, hi, hn, -⟩ := indexMeta_mem_exists (blockInfos compress d) _ e he
  obtain ⟨v, hv, rfl⟩ := List.mem_map.mp hi
  exact ⟨v, hv, hn⟩

/-- Success characterization of `addVariationsToFile` on a serialized
container: no name collision, and the output is the full re-serialization
with the old variations followed by the new ones. -/
theorem addVariationsToFile_serialize (compress decompress : Bytes → Bytes)
    (hcd : ∀ b, decompress (compress b) = b) (d : CharPackData)
    (hb : SerializeBounded compress d) (newVariations : List VariationMetadata)
    (baseImage : Bytes) (width height channels : Nat)
    (hnocol : ∀ v ∈ newVariations, ∀ v' ∈ d.variations, v'.name ≠ v.name) :
    addVariationsToFile compress decompress (serialize compress d) newVariations
        baseImage width height channels =
      .ok (serialize compress
        ⟨1, width, height, baseImage, d.variations ++ newVariations⟩) := by
  have hparse := parseHeaderWithIndex_serialize compress decompress d hb
  have hany : (newVariations.any fun v =>
      (indexMeta (firstBlockOffset compress d) (blockInfos compress d)).any fun e =>
        e.name == v.name) = false := by
    rw [List.any_eq_false]
    intro v hv
    rw [Bool.not_eq_true, List.any_eq_false]
    intro e he
    obtain ⟨v', hv', hn⟩ := serializeIndex_name_mem compress d e he
    rw [Bool.not_eq_true, beq_eq_false_iff_ne, hn]
    exact hnocol v hv v' hv'
  have hmap : (indexMeta (firstBlockOffset compress d) (blockInfos compress d)).map
      (extractVariationBlock decompress (serialize compress d)) = d.variations :=
    variations_map_extract compress decompress hcd (serialize compress d) _ _
      (serialize_blocks_forall₂ compress d)
      (fun v hv => ⟨(hb.2.2.2.2.1 v hv).2.1, (hb.2.2.2.2.1 v hv).2.2⟩)
  simp only [addVariationsToFile, hparse, hany, Bool.false_eq_true, if_false, hmap]

/-- C9 as stated is false: the collision check only compares new names with
existing ones, so adding two variations that share the fresh name `X`
succeeds and the resulting index lists `X` twice. -/
theorem addVariations_duplicate_new_names_cex :
    ((addVariationsToFile id id (serialize id sampleContainerA)
        [⟨[88], []⟩, ⟨[88], []⟩] [0, 0, 0, 0] 1 1 4).bind
      (fileIndexNames id)) = .ok [[65], [88], [88]] ∧
    ¬ ([[65], [88], [88]] : List Bytes).Nodup :=
  ⟨by with_unfolding_all rfl, by decide⟩

/-- C9 amended: a successful `addVariations` on a container with unique
variation names yields a file whose index lists the old names followed by
the new ones, and those names are unique provided the added batch itself
has pairwise-distinct names (the code never compares the new names with
each other). -/
theorem addVariations_unique_names (compress decompress : Bytes → Bytes)
    (hcd : ∀ b, decompress (compress b) = b) (d : CharPackData)
    (hb : SerializeBounded compress d) (newVariations : List VariationMetadata)
    (baseImage : Bytes) (width height channels : Nat) (out : Bytes)
    (hold : (d.variations.map (·.name)).Nodup)
    (hnew : (newVariations.map (·.name)).Nodup)
    (hb' : SerializeBounded compress
      ⟨1, width, height, baseImage, d.variations ++ newVariations⟩)
    (hok : addVariationsToFile compress decompress (serialize compress d)
      newVariations baseImage width height channels = .ok out) :
    fileIndexNames decompress out =
      .ok (d.variations.map (·.name) ++ newVariations.map (·.name)) ∧
    (d.variations.map (·.name) ++ newVariations.map (·.name)).Nodup := by
  have hparse := parseHeaderWithIndex_serialize compress decompress d hb
  have hnocol : ∀ v ∈ newVariations, ∀ v' ∈ d.variations, v'.name ≠ v.name := by
    intro v hv v' hv' hne
    have hany : (newVariations.any fun v =>
        (indexMeta (firstBlockOffset compress d) (blockInfos compress d)).any fun e =>
          e.name == v.name) = true := by
      rw [List.any_eq_true]
      refine ⟨v, hv, ?_⟩
      rw [List.any_eq_true]
      have hnames : (indexMeta (firstBlockOffset compress d)
          (blockInfos compress d)).map (·.name) = d.variations.map (·.name) := by
        rw [indexMeta_names]
        simp [blockInfos, Function.comp_def]
      have : v'.name ∈ (indexMeta (firstBlockOffset compress d)
          (blockInfos compress d)).map (·.name) := by
        rw [hnames]
        exact List.mem_map.mpr ⟨v', hv', rfl⟩
      obtain ⟨e, he, hen⟩ := List.mem_map.mp this
      exact ⟨e, he, by rw [hen, hne, beq_self_eq_true]⟩
    rw [addVariationsToFile] at hok
    rw [hparse] at hok
    simp only [hany, if_true] at hok
    exact absurd hok (by simp)
  rw [addVariationsToFile_serialize compress decompress hcd d hb newVariations
    baseImage width height channels hnocol] at hok
  obtain rfl : serialize compress
      ⟨1, width, height, baseImage, d.variations ++ newVariations⟩ = out :=
    Except.ok.inj hok
  constructor
  · rw [fileIndexNames, parseHeaderWithIndex_serialize compress decompress _ hb']
    simp only [Except.map]
    rw [indexMeta_names]
    simp [blockInfos, Function.comp_def]
  · rw [List.nodup_append]
    refine ⟨hold, hnew, ?_⟩
    intro a ha hb2
    obtain ⟨v', hv', rfl⟩ := List.mem_map.mp ha
    obtain ⟨v, hv, hn⟩ := List.mem_map.mp hb2
    exact hnocol v hv v' hv' hn.symm

/-- Witness for `addVariations_unique_names`: adding a fresh variation `X`
to the single-variation container yields an index listing `A` then `X`. -/
theorem addVariations_unique_names_witness :
    fileIndexNames id
        (serialize id ⟨1, 1, 1, [0, 0, 0, 0], [⟨[65], []⟩, ⟨[88], []⟩]⟩) =
      .ok (sampleContainerA.variations.map (·.name) ++
        ([⟨[88], []⟩] : List VariationMetadata).map (·.name)) ∧
    (sampleContainerA.variations.map (·.name) ++
      ([⟨[88], []⟩] : List VariationMetadata).map (·.name)).Nodup := by
  have hok : addVariationsToFile id id (serialize id sampleContainerA)
      [⟨[88], []⟩] [0, 0, 0, 0] 1 1 4 =
      .ok (serialize id ⟨1, 1, 1, [0, 0, 0, 0], [⟨[65], []⟩, ⟨[88], []⟩]⟩) := by
    with_unfolding_all rfl
  exact addVariations_unique_names id id (fun _ => rfl) sampleContainerA
    (by unfold SerializeBounded; decide) [⟨[88], []⟩] [0, 0, 0, 0] 1 1 4 _
    (by decide) (by decide) (by unfold SerializeBounded; decide) hok

/-! ## Random-access equivalence -/

theorem find?_forall₂ {α β : Type} (R : α → β → Prop) (p1 : α → Bool) (p2 : β → Bool)
    (l1 : List α) (l2 : List β) (h : List.Forall₂ R l1 l2)
    (hp : ∀ a b, R a b → p1 a = p2 b) :
    (l1.find? p1 = none ∧ l2.find? p2 = none) ∨
      ∃ a b, l1.find? p1 = some a ∧ l2.find? p2 = some b ∧ R a b ∧ b ∈ l2 := by
  induction h with
  | nil => exact Or.inl ⟨rfl, rfl⟩
  | @cons a b t1 t2 hrel htail ih =>
    by_cases hpa : p1 a = true
    · refine Or.inr ⟨a, b, ?_, ?_, hrel, List.mem_cons_self _ _⟩
      · rw [List.find?_cons_of_pos _ hpa]
      · rw [List.find?_cons_of_pos _ (by rw [← hp a b hrel]; exact hpa)]
    · have hpb : ¬ p2 b = true := by rw [← hp a b hrel]; exact hpa
      rw [List.find?_cons_of_neg _ hpa, List.find?_cons_of_neg _ hpb]
      rcases ih with ⟨h1, h2⟩ | ⟨x, y, h1, h2, hr, hy⟩
      · exact Or.inl ⟨h1, h2⟩
      · exact Or.inr ⟨x, y, h1, h2, hr, List.mem_cons_of_mem _ hy⟩

/-- C2: on a serialized container, the random-access path (parse header and
index, read and parse only the requested variation's block, apply its
patches) returns exactly what the bulk path (full deserialize, find the
variation, apply its patches) returns — including the not-found error. -/
theorem extract_eq_readGetImage (compress decompress : Bytes → Bytes)
    (pngDecodeEnsureAlpha : Bytes → Nat × Bytes)
    (hcd : ∀ b, decompress (compress b) = b) (d : CharPackData)
    (hb : SerializeBounded compress d) (hch : channelsOf d < 256)
    (variation : Bytes) :
    extract decompress pngDecodeEnsureAlpha (serialize compress d) variation =
      readGetImage decompress pngDecodeEnsureAlpha (serialize compress d) variation := by
  have hparse := parseHeaderWithIndex_serialize compress decompress d hb
  have hdes := deserialize_serialize compress decompress hcd d hb
  rw [extract, readGetImage]
  simp only [hparse, hdes]
  rcases find?_forall₂ _ (fun e => e.name == variation) (fun v => v.name == variation)
      _ _ (serialize_blocks_forall₂ compress d)
      (fun e v hrel => by simp only [hrel.1]) with ⟨h1, h2⟩ | ⟨e, v, h1, h2, hrel, hv⟩
  · simp only [h1, h2]
  · simp only [h1, h2]
    obtain ⟨hname, hsize, q, r, hq, hqlen⟩ := hrel
    have hblock := extractVariationBlock_spec compress decompress hcd
      (serialize compress d) e v hname hsize q r hq hqlen
      (hb.2.2.2.2.1 v hv).2.1 (hb.2.2.2.2.1 v hv).2.2
    rw [hblock, hcd]
    have hchaneq : channelsOf d % 256 = d.baseImage.length / (d.width * d.height) :=
      Nat.mod_eq_of_lt hch
    rw [hchaneq]

/-- Witness for `extract_eq_readGetImage` at a concrete container and
variation name. -/
theorem extract_eq_readGetImage_witness :
    (∀ b : Bytes, id (id b) = b) ∧ channelsOf sampleContainerAB < 256 ∧
    extract id (fun b => (4, b)) (serialize id sampleContainerAB) [66] =
      readGetImage id (fun b => (4, b)) (serialize id sampleContainerAB) [66] :=
  ⟨fun _ => rfl, by decide,
    extract_eq_readGetImage id id (fun b => (4, b)) (fun _ => rfl) sampleContainerAB
      (by unfold SerializeBounded; decide) (by decide) [66]⟩

/-! ## Buffer copy pointwise behavior -/

theorem getD_drop (l : Bytes) (n i d : Nat) : (l.drop n).getD i d = l.getD (n + i) d := by
  simp [List.getD_eq_getElem?_getD, List.getElem?_drop]

theorem getD_take (l : Bytes) (n i d : Nat) (h : i < n) :
    (l.take n).getD i d = l.getD i d := by
  simp [List.getD_eq_getElem?_getD, List.getElem?_take, h]

theorem bufCopy_length (dst src : Bytes) (o s e : Nat) :
    (bufCopy dst o src s e).length = dst.length := by
  simp only [bufCopy, List.length_append, List.length_take, List.length_drop]
  omega

theorem bufCopy_getD (dst src : Bytes) (o s e i : Nat) (hse : s ≤ e)
    (hsrc : e ≤ src.length) (hdst : o + (e - s) ≤ dst.length) :
    (bufCopy dst o src s e).getD i 0 =
      if o ≤ i ∧ i < o + (e - s) then src.getD (s + (i - o)) 0 else dst.getD i 0 := by
  have hchunklen : ((src.drop s).take (e - s)).length = e - s := by
    simp only [List.length_take, List.length_drop]
    omega
  have hchunk : (((src.drop s).take (e - s)).take (dst.length - o)) =
      (src.drop s).take (e - s) :=
    List.take_of_length_le (by omega)
  have htol : (dst.take o).length = o := by
    simp only [List.length_take]
    omega
  have habl : (dst.take o ++ (src.drop s).take (e - s)).length = o + (e - s) := by
    rw [List.length_append, htol, hchunklen]
  rw [bufCopy]
  simp only [hchunk, hchunklen]
  by_cases h2 : i < o + (e - s)
  · rw [List.getD_append _ _ 0 i (by rw [habl]; omega)]
    by_cases h1 : i < o
    · rw [if_neg (by omega)]
      rw [List.getD_append _ _ 0 i (by rw [htol]; omega)]
      exact getD_take dst o i 0 h1
    · rw [if_pos (by omega)]
      rw [List.getD_append_right _ _ 0 i (by rw [htol]; omega), htol]
      rw [getD_take _ _ _ _ (by omega), getD_drop]
  · rw [if_neg (by omega)]
    rw [List.getD_append_right _ _ 0 i (by rw [habl]; omega), habl, getD_drop]
    congr 1
    omega

/-! ## Extracted region contents -/

theorem flatMap_range_length (f : Nat → Bytes) (L : Nat) :
    ∀ n, (∀ k < n, (f k).length = L) → ((List.range n).flatMap f).length = n * L := by
  intro n
  induction n with
  | zero => intro _; simp
  | succ m ih =>
    intro hf
    rw [List.range_succ, List.flatMap_append, List.length_append,
      ih (fun k hk => hf k (by omega))]
    simp only [List.flatMap_cons, List.flatMap_nil, List.append_nil]
    rw [hf m (by omega)]
    ring

theorem flatMap_range_getD (f : Nat → Bytes) (L : Nat) :
    ∀ n, (∀ k < n, (f k).length = L) → ∀ j, j < n → ∀ i, i < L →
      ((List.range n).flatMap f).getD (j * L + i) 0 = (f j).getD i 0 := by
  intro n
  induction n with
  | zero => intro _ j hj; omega
  | succ m ih =>
    intro hf j hj i hi
    rw [List.range_succ, List.flatMap_append]
    simp only [List.flatMap_cons, List.flatMap_nil, List.append_nil]
    have hplen : ((List.range m).flatMap f).length = m * L :=
      flatMap_range_length f L m (fun k hk => hf k (by omega))
    by_cases hjm : j < m
    · rw [List.getD_append _ _ 0 _ (by rw [hplen]; calc
        j * L + i < j * L + L := by omega
        _ = (j + 1) * L := by ring
        _ ≤ m * L := Nat.mul_le_mul_right L (by omega))]
      exact ih (fun k hk => hf k (by omega)) j hjm i hi
    · have hjem : j = m := by omega
      subst hjem
      rw [List.getD_append_right _ _ 0 _ (by rw [hplen]; exact Nat.le_add_right _ _)]
      rw [hplen]
      congr 1
      omega

/-- A byte of the extracted region equals the corresponding byte of the
source image, when the rectangle lies within the image. -/
theorem extractRegion_getD (image : RawImageData) (rect : Rectangle)
    (_hx : rect.x + rect.width ≤ image.width)
    (hlen : (((rect.y + (rect.height - 1)) * image.width + rect.x) * image.channels +
      rect.width * image.channels ≤ image.data.length) ∨ rect.height = 0)
    (dy : Nat) (hdy : dy < rect.height) (k : Nat) (hk : k < rect.width * image.channels) :
    (extractRegion image rect).getD (dy * (rect.width * image.channels) + k) 0 =
      image.data.getD (((rect.y + dy) * image.width + rect.x) * image.channels + k) 0 := by
  have hrowlen : ∀ j < rect.height,
      ((image.data.drop (((rect.y + j) * image.width + rect.x) * image.channels)).take
        (rect.width * image.channels)).length = rect.width * image.channels := by
    intro j hj
    simp only [List.length_take, List.length_drop]
    rcases hlen with hlen | hlen
    · have hmono : ((rect.y + j) * image.width + rect.x) * image.channels ≤
          ((rect.y + (rect.height - 1)) * image.width + rect.x) * image.channels := by
        apply Nat.mul_le_mul_right
        have : rect.y + j ≤ rect.y + (rect.height - 1) := by omega
        exact Nat.add_le_add_right (Nat.mul_le_mul_right _ this) _
      omega
    · omega
  rw [extractRegion, flatMap_range_getD _ (rect.width * image.channels) rect.height
    hrowlen dy hdy k hk]
  rw [getD_take _ _ _ _ hk, getD_drop]

theorem extractRegion_length (image : RawImageData) (rect : Rectangle)
    (_hx : rect.x + rect.width ≤ image.width)
    (hlen : (((rect.y + (rect.height - 1)) * image.width + rect.x) * image.channels +
      rect.width * image.channels ≤ image.data.length) ∨ rect.height = 0) :
    (extractRegion image rect).length = rect.height * (rect.width * image.channels) := by
  rw [extractRegion]
  apply flatMap_range_length
  intro j hj
  simp only [List.length_take, List.length_drop]
  rcases hlen with hlen | hlen
  · have hmono : ((rect.y + j) * image.width + rect.x) * image.channels ≤
        ((rect.y + (rect.height - 1)) * image.width + rect.x) * image.channels := by
      apply Nat.mul_le_mul_right
      have : rect.y + j ≤ rect.y + (rect.height - 1) := by omega
      exact Nat.add_le_add_right (Nat.mul_le_mul_right _ this) _
    omega
  · omega

/-! ## Row application pointwise behavior -/

theorem applyPatchRows_succ (W ch x y w h : Nat) (src dst : Bytes) :
    applyPatchRows W ch x y w (h + 1) src dst =
      bufCopy (applyPatchRows W ch x y w h src dst) (((y + h) * W + x) * ch) src
        (h * (w * ch)) ((h + 1) * (w * ch)) := by
  rw [applyPatchRows, applyPatchRows, List.range_succ, List.foldl_append]
  rfl

theorem applyPatchRows_length (W ch x y w : Nat) (src : Bytes) :
    ∀ (h : Nat) (dst : Bytes),
      (applyPatchRows W ch x y w h src dst).length = dst.length := by
  intro h
  induction h with
  | zero => intro dst; rfl
  | succ m ih =>
    intro dst
    rw [applyPatchRows_succ, bufCopy_length, ih]

theorem applyPatchRows_getD (W ch x y w : Nat) (target src dst : Bytes) :
    ∀ (h : Nat),
      h * (w * ch) ≤ src.length →
      (∀ dy, dy < h → ((y + dy) * W + x) * ch + w * ch ≤ dst.length) →
      (∀ dy, dy < h → ∀ k, k < w * ch →
        src.getD (dy * (w * ch) + k) 0 =
          target.getD (((y + dy) * W + x) * ch + k) 0) →
      ∀ i, (applyPatchRows W ch x y w h src dst).getD i 0 =
        if ∃ dy, dy < h ∧ ((y + dy) * W + x) * ch ≤ i ∧
            i < ((y + dy) * W + x) * ch + w * ch
        then target.getD i 0 else dst.getD i 0 := by
  intro h
  induction h with
  | zero =>
    intro _ _ _ i
    rw [if_neg (by rintro ⟨dy, hdy, -⟩; omega)]
    rfl
  | succ m ih =>
    intro hslen hrow hsrc i
    have hmul : (m + 1) * (w * ch) = m * (w * ch) + w * ch := by ring
    have hsub : (m + 1) * (w * ch) - m * (w * ch) = w * ch := by omega
    rw [applyPatchRows_succ]
    rw [bufCopy_getD _ _ _ _ _ _ (by omega) hslen
      (by rw [applyPatchRows_length, hsub]; exact hrow m (by omega))]
    rw [hsub]
    by_cases hcov : ((y + m) * W + x) * ch ≤ i ∧ i < ((y + m) * W + x) * ch + w * ch
    · rw [if_pos hcov]
      rw [hsrc m (by omega) (i - ((y + m) * W + x) * ch) (by omega)]
      have hidx : ((y + m) * W + x) * ch + (i - ((y + m) * W + x) * ch) = i := by omega
      rw [hidx]
      rw [if_pos ⟨m, by omega, hcov.1, hcov.2⟩]
    · rw [if_neg hcov]
      rw [ih (by omega) (fun dy hdy => hrow dy (by omega))
        (fun dy hdy k hk => hsrc dy (by omega) k hk) i]
      by_cases hex : ∃ dy, dy < m ∧ ((y + dy) * W + x) * ch ≤ i ∧
          i < ((y + dy) * W + x) * ch + w * ch
      · obtain ⟨dy, hdy, hc⟩ := hex
        rw [if_pos ⟨dy, hdy, hc⟩, if_pos ⟨dy, by omega, hc⟩]
      · rw [if_neg hex, if_neg ?_]
        rintro ⟨dy, hdy, hc⟩
        by_cases hdym : dy = m
        · subst hdym
          exact hcov hc
        · exact hex ⟨dy, by omega, hc⟩

/-! ## Applying all merged patches -/

theorem row_bound (W H xx yy w hh dy ch : Nat) (hx : xx + w ≤ W) (hy : yy + hh ≤ H)
    (hdy : dy < hh) : ((yy + dy) * W + xx) * ch + w * ch ≤ W * H * ch := by
  have h2 : yy + dy + 1 ≤ H := by omega
  have h3 : (yy + dy + 1) * W ≤ H * W := Nat.mul_le_mul_right W h2
  have h4 : (yy + dy) * W + W = (yy + dy + 1) * W := by ring
  have h1 : (yy + dy) * W + xx + w ≤ W * H := by
    rw [Nat.mul_comm W H]
    omega
  calc ((yy + dy) * W + xx) * ch + w * ch = ((yy + dy) * W + xx + w) * ch := by ring
    _ ≤ (W * H) * ch := Nat.mul_le_mul_right ch h1

theorem applyLoop_merged_getD (pngEncode : Nat → Nat → Nat → Bytes → Bytes)
    (pngDecodeEnsureAlpha : Bytes → Nat × Bytes)
    (hpng : ∀ w h dta, pngDecodeEnsureAlpha (pngEncode w h 4 dta) = (4, dta))
    (base : RawImageData) (hbc : base.channels = 4)
    (tdata : Bytes) (htl : tdata.length = base.width * base.height * 4) :
    ∀ (rects : List Rectangle),
      (∀ r ∈ rects, rectInBounds r base.width base.height) →
      ∀ (dst : Bytes), dst.length = base.width * base.height * 4 →
      ∃ out,
        applyPatchesLoop pngDecodeEnsureAlpha base
          (rects.map fun r => ⟨r, pngEncode r.width r.height 4
            (extractRegion ⟨base.width, base.height, 4, tdata⟩ r)⟩) dst = .ok out ∧
        out.length = dst.length ∧
        ∀ i, out.getD i 0 = if ∃ r ∈ rects, coveredByRect base.width 4 r i
          then tdata.getD i 0 else dst.getD i 0 := by
  intro rects
  induction rects with
  | nil =>
    intro _ dst _
    refine ⟨dst, rfl, rfl, fun i => ?_⟩
    rw [if_neg (by rintro ⟨r, hr, -⟩; simp at hr)]
  | cons r t ih =>
    intro hin dst hdst
    have hrin := hin r (List.mem_cons_self _ _)
    obtain ⟨hx, hy⟩ := hrin
    have hdec : pngDecodeEnsureAlpha (pngEncode r.width r.height 4
        (extractRegion ⟨base.width, base.height, 4, tdata⟩ r)) =
        (4, extractRegion ⟨base.width, base.height, 4, tdata⟩ r) := hpng _ _ _
    have hexlen : (extractRegion ⟨base.width, base.height, 4, tdata⟩ r).length =
        r.height * (r.width * 4) := by
      refine extractRegion_length ⟨base.width, base.height, 4, tdata⟩ r hx ?_
      by_cases hh0 : r.height = 0
      · exact Or.inr hh0
      · exact Or.inl (by
          have := row_bound base.width base.height r.x r.y r.width r.height
            (r.height - 1) 4 hx hy (by omega)
          simpa [htl] using this)
    have hsrcpt : ∀ dy, dy < r.height → ∀ k, k < r.width * 4 →
        (extractRegion ⟨base.width, base.height, 4, tdata⟩ r).getD
          (dy * (r.width * 4) + k) 0 =
        tdata.getD (((r.y + dy) * base.width + r.x) * 4 + k) 0 := by
      intro dy hdy k hk
      refine extractRegion_getD ⟨base.width, base.height, 4, tdata⟩ r hx ?_ dy hdy k hk
      by_cases hh0 : r.height = 0
      · exact Or.inr hh0
      · exact Or.inl (by
          have := row_bound base.width base.height r.x r.y r.width r.height
            (r.height - 1) 4 hx hy (by omega)
          simpa [htl] using this)
    rw [List.map_cons, applyPatchesLoop]
    simp only [hdec]
    rw [if_pos hbc.symm]
    set dst' := applyPatchRows base.width 4 r.x r.y r.width r.height
      (extractRegion ⟨base.width, base.height, 4, tdata⟩ r) dst with hdst'
    have hdstlen' : dst'.length = base.width * base.height * 4 := by
      rw [hdst', applyPatchRows_length, hdst]
    obtain ⟨out, hout, houtlen, houtget⟩ :=
      ih (fun q hq => hin q (List.mem_cons_of_mem _ hq)) dst' hdstlen'
    refine ⟨out, ?_, by rw [houtlen, hdstlen', hdst], fun i => ?_⟩
    · exact hout
    · rw [houtget i]
      have hdget : ∀ j, dst'.getD j 0 =
          if ∃ dy, dy < r.height ∧ ((r.y + dy) * base.width + r.x) * 4 ≤ j ∧
            j < ((r.y + dy) * base.width + r.x) * 4 + r.width * 4
          then tdata.getD j 0 else dst.getD j 0 := by
        intro j
        rw [hdst']
        exact applyPatchRows_getD base.width 4 r.x r.y r.width tdata
          (extractRegion ⟨base.width, base.height, 4, tdata⟩ r) dst r.height
          (by rw [hexlen])
          (fun dy hdy => by
            rw [hdst]
            exact row_bound base.width base.height r.x r.y r.width r.height dy 4
              hx hy hdy)
          hsrcpt j
      by_cases hex : ∃ q ∈ t, coveredByRect base.width 4 q i
      · rw [if_pos hex]
        obtain ⟨q, hq, hc⟩ := hex
        rw [if_pos ⟨q, List.mem_cons_of_mem _ hq, hc⟩]
      · rw [if_neg hex, hdget i]
        by_cases hcr : ∃ dy, dy < r.height ∧ ((r.y + dy) * base.width + r.x) * 4 ≤ i ∧
            i < ((r.y + dy) * base.width + r.x) * 4 + r.width * 4
        · rw [if_pos hcr]
          obtain ⟨dy, hdy, hc1, hc2⟩ := hcr
          rw [if_pos ⟨r, List.mem_cons_self _ _, dy, hdy, hc1, hc2⟩]
        · rw [if_neg hcr, if_neg ?_]
          rintro ⟨q, hq, hcq⟩
          rcases List.mem_cons.mp hq with rfl | hq
          · obtain ⟨dy, hdy, hc⟩ := hcq
            exact hcr ⟨dy, hdy, hc⟩
          · exact hex ⟨q, hq, hcq⟩

/-! ## Merge coverage and bounds -/

theorem rectSubset_trans (a b c : Rectangle) (h1 : rectSubset a b) (h2 : rectSubset b c) :
    rectSubset a c := by
  obtain ⟨x1, y1, z1, w1⟩ := h1
  obtain ⟨x2, y2, z2, w2⟩ := h2
  exact ⟨by omega, by omega, by omega, by omega⟩

theorem rectSubset_unionLeft (a b : Rectangle) : rectSubset a (unionRect a b) := by
  refine ⟨?_, ?_, ?_, ?_⟩ <;> simp only [unionRect] <;> omega

theorem rectSubset_unionRight (a b : Rectangle) : rectSubset b (unionRect a b) := by
  refine ⟨?_, ?_, ?_, ?_⟩ <;> simp only [unionRect] <;> omega

theorem unionRect_inBounds (a b : Rectangle) (W H : Nat)
    (ha : rectInBounds a W H) (hb : rectInBounds b W H) :
    rectInBounds (unionRect a b) W H := by
  obtain ⟨a1, a2⟩ := ha
  obtain ⟨b1, b2⟩ := hb
  constructor <;> simp only [unionRect] <;> omega

theorem findPartner_facts (a : Rectangle) :
    ∀ (l : List Rectangle) (u : Rectangle) (rest' : List Rectangle),
      findPartner a l = some (u, rest') →
      ∃ b ∈ l, u = unionRect a b ∧ (∀ c ∈ rest', c ∈ l) ∧
        (∀ c ∈ l, c ∈ rest' ∨ c = b) := by
  intro l
  induction l with
  | nil => intro u rest' h; simp [findPartner] at h
  | cons b t ih =>
    intro u rest' h
    rw [findPartner] at h
    by_cases hb : intersectsOrAdjacent a b ∧ ¬ areaCapExceeded a b
    · rw [if_pos hb] at h
      simp only [Option.some.injEq, Prod.mk.injEq] at h
      obtain ⟨h1, h2⟩ := h
      subst h1
      subst h2
      refine ⟨b, List.mem_cons_self _ _, rfl, fun c hc => List.mem_cons_of_mem _ hc, ?_⟩
      intro c hc
      rcases List.mem_cons.mp hc with rfl | hc
      · exact Or.inr rfl
      · exact Or.inl hc
    · rw [if_neg hb] at h
      cases hfp : findPartner a t with
      | some p =>
        obtain ⟨u', t'⟩ := p
        rw [hfp] at h
        simp only [Option.some.injEq, Prod.mk.injEq] at h
        obtain ⟨h1, h2⟩ := h
        subst h1
        subst h2
        obtain ⟨b', hb', huni, hsub, hsplit⟩ := ih u' t' hfp
        refine ⟨b', List.mem_cons_of_mem _ hb', huni, ?_, ?_⟩
        · intro c hc
          rcases List.mem_cons.mp hc with rfl | hc
          · exact List.mem_cons_self _ _
          · exact List.mem_cons_of_mem _ (hsub c hc)
        · intro c hc
          rcases List.mem_cons.mp hc with rfl | hc
          · exact Or.inl (List.mem_cons_self _ _)
          · rcases hsplit c hc with hc' | rfl
            · exact Or.inl (List.mem_cons_of_mem _ hc')
            · exact Or.inr rfl
      | none => rw [hfp] at h; exact absurd h (by simp)

theorem mergeOnce_facts (l l' : List Rectangle) (h : mergeOnce l = some l') :
    (∀ c ∈ l, ∃ c' ∈ l', rectSubset c c') ∧
    (∀ c' ∈ l', c' ∈ l ∨ ∃ a ∈ l, ∃ b ∈ l, c' = unionRect a b) := by
  induction l generalizing l' with
  | nil => simp [mergeOnce] at h
  | cons a t ih =>
    rw [mergeOnce] at h
    cases hfp : findPartner a t with
    | some p =>
      obtain ⟨u, rest'⟩ := p
      rw [hfp] at h
      simp only [Option.some.injEq] at h
      subst h
      obtain ⟨b, hb, rfl, hsub, hsplit⟩ := findPartner_facts a t u rest' hfp
      constructor
      · intro c hc
        rcases List.mem_cons.mp hc with rfl | hc
        · exact ⟨unionRect c b, List.mem_cons_self _ _, rectSubset_unionLeft c b⟩
        · rcases hsplit c hc with hc' | rfl
          · refine ⟨c, List.mem_cons_of_mem _ hc', ?_⟩
            exact ⟨le_rfl, le_rfl, le_rfl, le_rfl⟩
          · exact ⟨unionRect a c, List.mem_cons_self _ _, rectSubset_unionRight a c⟩
      · intro c' hc'
        rcases List.mem_cons.mp hc' with rfl | hc'
        · exact Or.inr ⟨a, List.mem_cons_self _ _, b, List.mem_cons_of_mem _ hb, rfl⟩
        · exact Or.inl (List.mem_cons_of_mem _ (hsub c' hc'))
    | none =>
      rw [hfp] at h
      cases hmo : mergeOnce t with
      | some t' =>
        rw [hmo] at h
        simp only [Option.some.injEq] at h
        subst h
        obtain ⟨hcov, hmem⟩ := ih t' hmo
        constructor
        · intro c hc
          rcases List.mem_cons.mp hc with rfl | hc
          · exact ⟨c, List.mem_cons_self _ _, le_rfl, le_rfl, le_rfl, le_rfl⟩
          · obtain ⟨c', hc', hsub⟩ := hcov c hc
            exact ⟨c', List.mem_cons_of_mem _ hc', hsub⟩
        · intro c' hc'
          rcases List.mem_cons.mp hc' with rfl | hc'
          · exact Or.inl (List.mem_cons_self _ _)
          · rcases hmem c' hc' with hm | ⟨x, hx, y, hy, hu⟩
            · exact Or.inl (List.mem_cons_of_mem _ hm)
            · exact Or.inr ⟨x, List.mem_cons_of_mem _ hx, y, List.mem_cons_of_mem _ hy, hu⟩
      | none => rw [hmo] at h; exact absurd h (by simp)

theorem mergeLoop_facts (W H : Nat) :
    ∀ (fuel : Nat) (l : List Rectangle),
      (∀ c ∈ l, ∃ c' ∈ mergeLoop fuel l, rectSubset c c') ∧
      ((∀ c ∈ l, rectInBounds c W H) →
        ∀ c' ∈ mergeLoop fuel l, rectInBounds c' W H) := by
  intro fuel
  induction fuel with
  | zero =>
    intro l
    refine ⟨fun c hc => ⟨c, hc, le_rfl, le_rfl, le_rfl, le_rfl⟩, fun hin c' hc' => hin c' hc'⟩
  | succ n ih =>
    intro l
    rw [mergeLoop]
    cases hmo : mergeOnce l with
    | some l' =>
      obtain ⟨hcov, hmem⟩ := mergeOnce_facts l l' hmo
      obtain ⟨ihcov, ihin⟩ := ih l'
      constructor
      · intro c hc
        obtain ⟨c1, hc1, hsub1⟩ := hcov c hc
        obtain ⟨c2, hc2, hsub2⟩ := ihcov c1 hc1
        exact ⟨c2, hc2, rectSubset_trans c c1 c2 hsub1 hsub2⟩
      · intro hin c' hc'
        refine ihin ?_ c' hc'
        intro c1 hc1
        rcases hmem c1 hc1 with hm | ⟨x, hx, y, hy, rfl⟩
        · exact hin c1 hm
        · exact unionRect_inBounds x y W H (hin x hx) (hin y hy)
    | none =>
      refine ⟨fun c hc => ⟨c, hc, le_rfl, le_rfl, le_rfl, le_rfl⟩,
        fun hin c' hc' => hin c' hc'⟩

theorem mergeRectangles_cover (rects : List Rectangle) :
    ∀ c ∈ rects, ∃ c' ∈ mergeRectangles rects, rectSubset c c' :=
  (mergeLoop_facts 0 0 rects.length rects).1

theorem mergeRectangles_inBounds (rects : List Rectangle) (W H : Nat)
    (hin : ∀ c ∈ rects, rectInBounds c W H) :
    ∀ c' ∈ mergeRectangles rects, rectInBounds c' W H :=
  (mergeLoop_facts W H rects.length rects).2 hin

/-! ## Grid scan facts for the default configuration -/

theorem gridStarts_lt (total bs x : Nat) (hbs : 0 < bs) (hx : x ∈ gridStarts total bs) :
    x < total := by
  rw [gridStarts] at hx
  obtain ⟨k, hk, rfl⟩ := List.mem_map.mp hx
  rw [List.mem_range] at hk
  have h3 : (k + 1) * bs = k * bs + bs := by ring
  have h1 : (k + 1) * bs ≤ ((total + bs - 1) / bs) * bs :=
    Nat.mul_le_mul_right bs (by omega)
  have h2 : ((total + bs - 1) / bs) * bs ≤ total + bs - 1 := Nat.div_mul_le_self _ _
  have h4 : 1 ≤ (total + bs - 1) / bs := by omega
  have h5 : bs ≤ total + bs - 1 := (Nat.one_le_div_iff hbs).mp h4
  omega

theorem gridStarts_cover (total bs p : Nat) (hbs : 0 < bs) (hp : p < total) :
    (p / bs) * bs ∈ gridStarts total bs := by
  rw [gridStarts]
  refine List.mem_map.mpr ⟨p / bs, List.mem_range.mpr ?_, rfl⟩
  have h1 : p ≤ total - 1 := by omega
  have h2 : p / bs ≤ (total - 1) / bs := Nat.div_le_div_right h1
  have h4 : total - 1 + bs = total + bs - 1 := by omega
  have h3 : (total + bs - 1) / bs = (total - 1) / bs + 1 := by
    rw [← h4]
    exact Nat.add_div_right _ hbs
  omega

theorem sampleHit_default_iff (base target : RawImageData) (x y : Nat)
    (p : Nat × Nat × Nat) :
    sampleHit base target x y 0 0 p = true ↔
      byteAt base.data
          (((y + p.1) * base.width + (x + p.2.1)) * base.channels + p.2.2) ≠
        byteAt target.data
          (((y + p.1) * base.width + (x + p.2.1)) * base.channels + p.2.2) := by
  obtain ⟨dy, dx, c⟩ := p
  simp only [sampleHit]
  rw [if_neg (by norm_num)]
  simp only [decide_eq_true_eq]
  have hcast : ((chanDiff base.data target.data
      (((y + dy) * base.width + (x + dx)) * base.channels + c) : ℚ) > 0) ↔
      0 < chanDiff base.data target.data
        (((y + dy) * base.width + (x + dx)) * base.channels + c) := by
    exact_mod_cast Iff.rfl
  rw [hcast]
  rw [chanDiff]
  constructor
  · intro h hne
    rw [hne] at h
    simp at h
  · intro hne
    rcases Nat.eq_zero_or_pos (((byteAt base.data
        (((y + dy) * base.width + (x + dx)) * base.channels + c) : Int) -
        byteAt target.data
          (((y + dy) * base.width + (x + dx)) * base.channels + c)).natAbs) with h0 | hpos
    · exfalso
      rw [Int.natAbs_eq_zero, sub_eq_zero] at h0
      exact hne (by exact_mod_cast h0)
    · exact hpos

theorem scanPositions_mem (h w ch : Nat) (p : Nat × Nat × Nat) :
    p ∈ scanPositions h w ch ↔ p.1 < h ∧ p.2.1 < w ∧ p.2.2 < ch := by
  obtain ⟨dy, dx, c⟩ := p
  simp [scanPositions, List.mem_flatMap, List.mem_map, List.mem_range]
  constructor
  · rintro ⟨a, ha, b, hb, c', hc', h1, h2, h3⟩
    subst h1; subst h2; subst h3
    exact ⟨ha, hb, hc'⟩
  · rintro ⟨h1, h2, h3⟩
    exact ⟨dy, h1, dx, h2, c, h3, rfl, rfl, rfl⟩

/-- For the default strict configuration, a block is reported different
exactly when some byte of some pixel of the block differs. -/
theorem isBlockDifferent_default_iff (base target : RawImageData) (x y bw bh : Nat) :
    isBlockDifferent base target x y bw bh 0 0 0 = true ↔
      ∃ dy, dy < bh ∧ ∃ dx, dx < bw ∧ ∃ c, c < base.channels ∧
        byteAt base.data (((y + dy) * base.width + (x + dx)) * base.channels + c) ≠
        byteAt target.data (((y + dy) * base.width + (x + dx)) * base.channels + c) := by
  rw [isBlockDifferent, blockScan_eq_true_iff]
  have hstrict : (decide ((0 : ℚ) = 0)) = true := by norm_num
  rw [hstrict]
  simp only [true_or, and_true]
  rw [show (1 ≤ (scanPositions bh bw base.channels).countP
      (sampleHit base target x y 0 0)) ↔
      0 < (scanPositions bh bw base.channels).countP
        (sampleHit base target x y 0 0) from Iff.rfl]
  rw [List.countP_pos_iff]
  constructor
  · rintro ⟨p, hp, hhit⟩
    obtain ⟨h1, h2, h3⟩ := (scanPositions_mem bh bw base.channels p).mp hp
    exact ⟨p.1, h1, p.2.1, h2, p.2.2, h3,
      (sampleHit_default_iff base target x y p).mp hhit⟩
  · rintro ⟨dy, h1, dx, h2, c, h3, hne⟩
    exact ⟨(dy, dx, c), (scanPositions_mem bh bw base.channels (dy, dx, c)).mpr
      ⟨h1, h2, h3⟩, (sampleHit_default_iff base target x y (dy, dx, c)).mpr hne⟩

/-! ## Diff then apply is the identity (default configuration) -/

/-- Applying the patches `calculateDiff` produces at the default strict
configuration reconstructs the target image exactly. -/
theorem applyPatches_calculateDiff (pngEncode : Nat → Nat → Nat → Bytes → Bytes)
    (pngDecodeEnsureAlpha : Bytes → Nat × Bytes)
    (hpng : ∀ w h dta, pngDecodeEnsureAlpha (pngEncode w h 4 dta) = (4, dta))
    (base : RawImageData) (tdata : Bytes)
    (hbc : base.channels = 4)
    (hbl : base.data.length = base.width * base.height * 4)
    (htl : tdata.length = base.width * base.height * 4)
    (patches : List DiffPatch)
    (hp : calculateDiff pngEncode base ⟨base.width, base.height, 4, tdata⟩ 32 0 0 0 =
      .ok patches) :
    applyPatches pngDecodeEnsureAlpha base patches =
      .ok ⟨base.width, base.height, base.channels, tdata⟩ := by
  rw [calculateDiff] at hp
  rw [if_neg (by simp [hbc])] at hp
  have hpatches : patches =
      (mergeRectangles
        (diffBlockList base ⟨base.width, base.height, 4, tdata⟩ 32 0 0 0)).map
        (fun r => ⟨r, pngEncode r.width r.height 4
          (extractRegion ⟨base.width, base.height, 4, tdata⟩ r)⟩) :=
    (Except.ok.inj hp).symm
  have hblocks : ∀ r ∈ diffBlockList base ⟨base.width, base.height, 4, tdata⟩ 32 0 0 0,
      rectInBounds r base.width base.height := by
    intro r hr
    rw [mem_diffBlockList_iff] at hr
    obtain ⟨yy, hyy, xx, hxx, -, rfl⟩ := hr
    have hx := gridStarts_lt _ 32 xx (by norm_num) hxx
    have hy := gridStarts_lt _ 32 yy (by norm_num) hyy
    constructor
    · show xx + min 32 (base.width - xx) ≤ base.width
      omega
    · show yy + min 32 (base.height - yy) ≤ base.height
      omega
  have hmerged : ∀ r' ∈ mergeRectangles
      (diffBlockList base ⟨base.width, base.height, 4, tdata⟩ 32 0 0 0),
      rectInBounds r' base.width base.height :=
    mergeRectangles_inBounds _ _ _ hblocks
  obtain ⟨out, hout, houtlen, houtget⟩ := applyLoop_merged_getD pngEncode
    pngDecodeEnsureAlpha hpng base hbc tdata htl
    (mergeRectangles (diffBlockList base ⟨base.width, base.height, 4, tdata⟩ 32 0 0 0))
    hmerged base.data hbl
  rw [applyPatches, hpatches, hout]
  simp only [Except.map]
  suffices hfinal : out = tdata by rw [hfinal]
  have hlen2 : out.length = tdata.length := by rw [houtlen, hbl, htl]
  apply List.ext_getElem hlen2
  intro i h1 h2
  have hi : i < base.width * base.height * 4 := by rw [← htl]; exact h2
  have hgd : out.getD i 0 = tdata.getD i 0 := by
    rw [houtget i]
    by_cases hcov : ∃ r ∈ mergeRectangles
        (diffBlockList base ⟨base.width, base.height, 4, tdata⟩ 32 0 0 0),
        coveredByRect base.width 4 r i
    · rw [if_pos hcov]
    · rw [if_neg hcov]
      by_contra hne
      rcases Nat.eq_zero_or_pos base.width with hW0 | hWpos
      · rw [hW0] at hi; omega
      rcases Nat.eq_zero_or_pos base.height with hH0 | hHpos
      · rw [hH0] at hi; omega
      -- decompose the byte index into pixel coordinates
      have hdm4 := Nat.div_add_mod i 4
      have hc4 : i % 4 < 4 := Nat.mod_lt i (by norm_num)
      have hdmW := Nat.div_add_mod (i / 4) base.width
      have hpx : i / 4 % base.width < base.width := Nat.mod_lt _ hWpos
      have hj : i / 4 < base.width * base.height := by
        rw [Nat.div_lt_iff_lt_mul (by norm_num : (0:Nat) < 4)]
        exact hi
      have hpy : i / 4 / base.width < base.height := by
        rw [Nat.div_lt_iff_lt_mul hWpos]
        calc i / 4 < base.width * base.height := hj
          _ = base.height * base.width := Nat.mul_comm _ _
      set py := i / 4 / base.width with hpydef
      set px := i / 4 % base.width with hpxdef
      set cc := i % 4 with hccdef
      have hieq : i = (py * base.width + px) * 4 + cc := by
        have : base.width * py + px = i / 4 := hdmW
        calc i = 4 * (i / 4) + cc := hdm4.symm
          _ = 4 * (base.width * py + px) + cc := by rw [this]
          _ = (py * base.width + px) * 4 + cc := by ring
      -- the grid cell containing the pixel
      have hcx := gridStarts_cover base.width 32 px (by norm_num) hpx
      have hcy := gridStarts_cover base.height 32 py (by norm_num) hpy
      have hxle : px / 32 * 32 ≤ px := Nat.div_mul_le_self _ _
      have hyle : py / 32 * 32 ≤ py := Nat.div_mul_le_self _ _
      have hxmod := Nat.div_add_mod px 32
      have hymod := Nat.div_add_mod py 32
      have hxm : px % 32 < 32 := Nat.mod_lt _ (by norm_num)
      have hym : py % 32 < 32 := Nat.mod_lt _ (by norm_num)
      -- the cell is flagged as different
      have hflag : isBlockDifferent base ⟨base.width, base.height, 4, tdata⟩
          (px / 32 * 32) (py / 32 * 32)
          (min 32 (base.width - px / 32 * 32)) (min 32 (base.height - py / 32 * 32))
          0 0 0 = true := by
        rw [isBlockDifferent_default_iff]
        refine ⟨py - py / 32 * 32, by omega, px - px / 32 * 32, by omega, cc,
          by rw [hbc]; omega, ?_⟩
        have hyy : py / 32 * 32 + (py - py / 32 * 32) = py := by omega
        have hxx : px / 32 * 32 + (px - px / 32 * 32) = px := by omega
        rw [hyy, hxx, hbc, ← hieq]
        exact hne
      -- the cell is one of the differing blocks
      have hcell : (⟨px / 32 * 32, py / 32 * 32,
          min 32 (base.width - px / 32 * 32), min 32 (base.height - py / 32 * 32)⟩ :
            Rectangle) ∈
          diffBlockList base ⟨base.width, base.height, 4, tdata⟩ 32 0 0 0 := by
        rw [mem_diffBlockList_iff]
        exact ⟨py / 32 * 32, hcy, px / 32 * 32, hcx, hflag, rfl⟩
      -- some merged rectangle contains the cell, hence the byte
      obtain ⟨r', hr', hsub⟩ := mergeRectangles_cover _ _ hcell
      obtain ⟨hs1, hs2, hs3, hs4⟩ := hsub
      refine hcov ⟨r', hr', py - r'.y, ?_, ?_, ?_⟩
      · show py - r'.y < r'.height
        simp only at hs2 hs4
        omega
      · have hyr : r'.y + (py - r'.y) = py := by
          simp only at hs2
          omega
        rw [hyr]
        calc (py * base.width + r'.x) * 4 ≤ (py * base.width + px) * 4 := by
              apply Nat.mul_le_mul_right
              simp only at hs1
              omega
          _ ≤ i := by omega
      · have hyr : r'.y + (py - r'.y) = py := by
          simp only at hs2
          omega
        rw [hyr]
        have hstep : (py * base.width + px + 1) * 4 ≤
            (py * base.width + r'.x + r'.width) * 4 := by
          apply Nat.mul_le_mul_right
          simp only at hs3
          omega
        have hre : (py * base.width + r'.x + r'.width) * 4 =
            (py * base.width + r'.x) * 4 + r'.width * 4 := by ring
        omega
  rw [List.getD_eq_getElem out 0 h1, List.getD_eq_getElem tdata 0 h2] at hgd
  exact hgd

/-- The pack loop pairs every input image with a variation carrying its name,
and at the default strict configuration applying that variation reconstructs
the image, provided all images share the base dimensions and RGBA layout. -/
theorem packApply_forall₂ (pngEncode : Nat → Nat → Nat → Bytes → Bytes)
    (pngDecodeEnsureAlpha : Bytes → Nat × Bytes)
    (hpng : ∀ w h dta, pngDecodeEnsureAlpha (pngEncode w h 4 dta) = (4, dta))
    (base : RawImageData) (hbc : base.channels = 4)
    (hbl : base.data.length = base.width * base.height * 4) :
    ∀ (images : List (Bytes × RawImageData)) (vars : List VariationMetadata),
    (∀ ni ∈ images, (ni : Bytes × RawImageData).2.width = base.width ∧
      ni.2.height = base.height ∧ ni.2.channels = 4 ∧
      ni.2.data.length = base.width * base.height * 4) →
    packVariations pngEncode base 32 0 0 0 images = .ok vars →
    List.Forall₂ (fun ni v => (v : VariationMetadata).name = ni.1 ∧
      applyPatches pngDecodeEnsureAlpha base v.patches =
        .ok ⟨base.width, base.height, base.channels, ni.2.data⟩) images vars := by
  intro images
  induction images with
  | nil =>
    intro vars _ h
    simp only [packVariations] at h
    injection h with h2
    subst h2
    exact List.Forall₂.nil
  | cons ni rest ih =>
    intro vars himg h
    obtain ⟨name, img⟩ := ni
    obtain ⟨w, ht, ch, dta⟩ := img
    obtain ⟨hw, hh, hch, hdl⟩ := himg (name, ⟨w, ht, ch, dta⟩) (List.mem_cons_self _ _)
    have hw2 : w = base.width := hw
    have hh2 : ht = base.height := hh
    have hch2 : ch = 4 := hch
    have hdl2 : dta.length = base.width * base.height * 4 := hdl
    subst hw2
    subst hh2
    subst hch2
    simp only [packVariations] at h
    cases hcd : calculateDiff pngEncode base ⟨base.width, base.height, 4, dta⟩
        32 0 0 0 with
    | error e => simp [hcd] at h
    | ok patches =>
      simp only [hcd] at h
      cases hrest : packVariations pngEncode base 32 0 0 0 rest with
      | error e => rw [hrest] at h; simp [Except.map] at h
      | ok vrest =>
        rw [hrest] at h
        simp only [Except.map] at h
        injection h with h2
        subst h2
        refine List.Forall₂.cons ⟨rfl, ?_⟩
          (ih vrest (fun x hx => himg x (List.mem_cons_of_mem _ hx)) hrest)
        exact applyPatches_calculateDiff pngEncode pngDecodeEnsureAlpha hpng base
          dta hbc hbl hdl2 patches hcd

/-- C1: for every set of same-sized RGBA pixel buffers packed at the default
configuration (blockSize 32, diffThreshold 0, colorDistanceThreshold 0,
diffToleranceRatio 0), serializing the resulting container and deserializing
it returns the container intact, and applying each variation's patches to
the base image yields exactly that variation's original pixel buffer. -/
theorem charpack_roundtrip_identity
    (pngEncode : Nat → Nat → Nat → Bytes → Bytes)
    (pngDecodeEnsureAlpha : Bytes → Nat × Bytes)
    (hpng : ∀ w h dta, pngDecodeEnsureAlpha (pngEncode w h 4 dta) = (4, dta))
    (compress decompress : Bytes → Bytes)
    (hcd : ∀ b, decompress (compress b) = b)
    (base : RawImageData)
    (hbc : base.channels = 4)
    (hbl : base.data.length = base.width * base.height * 4)
    (images : List (Bytes × RawImageData))
    (himg : ∀ ni ∈ images, (ni : Bytes × RawImageData).2.width = base.width ∧
      ni.2.height = base.height ∧ ni.2.channels = 4 ∧
      ni.2.data.length = base.width * base.height * 4)
    (vars : List VariationMetadata)
    (hpack : packVariations pngEncode base 32 0 0 0 images = .ok vars)
    (hb : SerializeBounded compress
      ⟨VERSION, base.width, base.height, base.data, vars⟩) :
    deserialize decompress (serialize compress
        ⟨VERSION, base.width, base.height, base.data, vars⟩) =
      .ok ⟨VERSION, base.width, base.height, base.data, vars⟩ ∧
    List.Forall₂ (fun ni v => (v : VariationMetadata).name = ni.1 ∧
      applyPatches pngDecodeEnsureAlpha base v.patches =
        .ok ⟨base.width, base.height, base.channels, ni.2.data⟩) images vars := by
  constructor
  · exact deserialize_serialize compress decompress hcd _ hb
  · exact packApply_forall₂ pngEncode pngDecodeEnsureAlpha hpng base hbc hbl
      images vars himg hpack

/-- C1 witness: a 1x1 RGBA base with one differing variant round-trips
through pack, serialize, deserialize and apply. -/
theorem charpack_roundtrip_identity_witness :
    deserialize (fun b => b) (serialize (fun b => b)
        ⟨VERSION, 1, 1, [0, 0, 0, 0],
          [⟨[65], [⟨⟨0, 0, 1, 1⟩, [9, 9, 9, 9]⟩]⟩]⟩) =
      .ok ⟨VERSION, 1, 1, [0, 0, 0, 0],
        [⟨[65], [⟨⟨0, 0, 1, 1⟩, [9, 9, 9, 9]⟩]⟩]⟩ ∧
    List.Forall₂ (fun ni v => (v : VariationMetadata).name = ni.1 ∧
      applyPatches (fun b => (4, b)) ⟨1, 1, 4, [0, 0, 0, 0]⟩ v.patches =
        .ok ⟨1, 1, 4, ni.2.data⟩)
      [([65], (⟨1, 1, 4, [9, 9, 9, 9]⟩ : RawImageData))]
      [⟨[65], [⟨⟨0, 0, 1, 1⟩, [9, 9, 9, 9]⟩]⟩] :=
  charpack_roundtrip_identity (fun _ _ _ d => d) (fun b => (4, b))
    (fun _ _ _ => rfl) (fun b => b) (fun b => b) (fun _ => rfl)
    ⟨1, 1, 4, [0, 0, 0, 0]⟩ rfl (by decide)
    [([65], ⟨1, 1, 4, [9, 9, 9, 9]⟩)] (by decide)
    [⟨[65], [⟨⟨0, 0, 1, 1⟩, [9, 9, 9, 9]⟩]⟩]
    (by with_unfolding_all rfl)
    (by unfold SerializeBounded; decide)

end CharPack
